import Mathlib

/-!
Verification of the underground-railroad core against its specification.

The Rust sources are shallowly embedded: pure functions become Lean
functions, byte vectors become lists of natural numbers (each entry one
byte), `u32` counters become natural numbers, fallible functions return
`Except`, and struct-mutating methods become functions from the struct to
the struct.  Randomness (RNG sampling) and the current time are passed as
explicit arguments.  External cryptographic primitives (X25519, Kyber1024,
ChaCha20-Poly1305) are modelled as parameters, with their standard
correctness laws as hypotheses; SHA-256 and SHA-512 are implemented in
full.
-/

/-- Byte strings: each entry is one byte (values are reduced mod 256 by the
hash implementations; the abstract-primitive sections use plain lists). -/
abbrev Bytes := List Nat

/-! ## Core types (src/core/src/types.rs) -/

/-- Trust level for a contact (types.rs, enum TrustLevel). -/
inductive TrustLevel where
  | blocked
  | unknown
  | introduced
  | verifiedRemote
  | verifiedInPerson
deriving DecidableEq

/-- Discriminant of the TrustLevel enum (types.rs assigns 0..4). -/
def TrustLevel.disc : TrustLevel → Nat
  | .blocked => 0
  | .unknown => 1
  | .introduced => 2
  | .verifiedRemote => 3
  | .verifiedInPerson => 4

/-- Derived Ord on the Rust enum compares discriminants; this is the
corresponding le. -/
def TrustLevel.le (a b : TrustLevel) : Bool := a.disc ≤ b.disc

/-- Binary minimum by the derived Ord of TrustLevel. -/
def TrustLevel.min2 (a b : TrustLevel) : TrustLevel :=
  if TrustLevel.le a b then a else b

/-- Iterator::min over a list of trust levels (None on the empty list),
matching trust_levels.iter().min() in graph.rs. -/
def trustLevelListMin : List TrustLevel → Option TrustLevel
  | [] => none
  | l :: ls =>
    match trustLevelListMin ls with
    | none => some l
    | some m => some (TrustLevel.min2 l m)

/-- Geographic region (types.rs, struct Region).  Latitude and longitude
are stored as millionths of degrees. -/
structure Region where
  name : String
  lat : Option Int
  lon : Option Int
  radius_km : Option Nat
deriving DecidableEq

/-- Region::new - a region with just a name (types.rs lines 93-100). -/
def Region.mkNamed (name : String) : Region :=
  { name := name, lat := none, lon := none, radius_km := none }

/-- Squared planar distance between two region centres, in squared
millionths of degrees; none when either region lacks coordinates.
Region::distance_to (types.rs lines 103-114) computes
sqrt(d2) / 10^6 * 111 km from this quantity in f64; we keep the exact
integer d2 so that comparisons against a km bound are exact. -/
def Region.distance_sq (self other : Region) : Option Int :=
  match self.lat, self.lon, other.lat, other.lon with
  | some la1, some lo1, some la2, some lo2 =>
      some ((la1 - la2) ^ 2 + (lo1 - lo2) ^ 2)
  | _, _, _, _ => none

/-- The comparison distance_to < km, rendered in exact integer arithmetic:
sqrt(d2)/10^6*111 < km iff d2 * 111^2 < km^2 * 10^12 (both sides are
nonnegative).  This is the exact-real reading of the f64 comparison in
TransportOffer::can_serve. -/
def Region.distance_lt_km (self other : Region) (km : Int) : Bool :=
  match Region.distance_sq self other with
  | none => false
  | some d2 => d2 * 12321 < km ^ 2 * 1000000000000

/-! ## Message status (src/core/src/messaging/protocol.rs) -/

/-- Message delivery status (protocol.rs, enum MessageStatus). -/
inductive MessageStatus where
  | draft
  | queued
  | sending
  | sent
  | delivered
  | read
  | failed
  | expired
deriving DecidableEq

/-- Position of a status along the chain Draft, Queued, Sending, Sent,
Delivered, Read; the two terminal alternatives are ranked above Read only
so that the function is total (the claim is about the six-status chain). -/
def MessageStatus.chainRank : MessageStatus → Nat
  | .draft => 0
  | .queued => 1
  | .sending => 2
  | .sent => 3
  | .delivered => 4
  | .read => 5
  | .failed => 6
  | .expired => 7

/-- Membership in the six-status chain of the claim. -/
def MessageStatus.inChain : MessageStatus → Bool
  | .failed => false
  | .expired => false
  | _ => true

/-- Message::mark_sent (protocol.rs lines 260-262): sets the status to
Sent unconditionally. -/
def MessageStatus.mark_sent (_ : MessageStatus) : MessageStatus :=
  MessageStatus.sent

/-- Message::mark_delivered (protocol.rs lines 265-269): moves Sent to
Delivered and leaves every other status unchanged. -/
def MessageStatus.mark_delivered (s : MessageStatus) : MessageStatus :=
  if s = MessageStatus.sent then MessageStatus.delivered else s

/-- Message::mark_read (protocol.rs lines 272-276): moves Delivered to
Read and leaves every other status unchanged. -/
def MessageStatus.mark_read (s : MessageStatus) : MessageStatus :=
  if s = MessageStatus.delivered then MessageStatus.read else s

/-- Claim C7, as stated: every one of the three transition methods only
moves the status forward along the chain. -/
def c7ClaimStatement : Prop :=
  ∀ s : MessageStatus, s.inChain = true →
    s.chainRank ≤ s.mark_sent.chainRank ∧
    s.chainRank ≤ s.mark_delivered.chainRank ∧
    s.chainRank ≤ s.mark_read.chainRank

/-! ## Safe houses (src/core/src/assistance/safe_house.rs) -/

/-- What a safe house can provide (safe_house.rs, enum SafeHouseCapability). -/
inductive SafeHouseCapability where
  | shelter
  | food
  | medical
  | communication
  | financial
  | transportation
  | legal
  | documents
  | childCare
  | translation
  | longTerm
deriving DecidableEq

/-- Availability status of a safe house (safe_house.rs, enum SafeHouseStatus). -/
inductive SafeHouseStatus where
  | available
  | availableWithNotice
  | occupied
  | temporarilyUnavailable
  | closed
deriving DecidableEq

/-- Special accommodations (safe_house.rs, enum Accommodation). -/
inductive Accommodation where
  | wheelchairAccessible
  | familyFriendly
  | petFriendly
  | privateRooms
  | groundFloor
  | facilities
  | secluded
  | transitAccessible
deriving DecidableEq

/-- A safe house (safe_house.rs, struct SafeHouse).  The u32 counters
become naturals, the two coarse timestamps become integers, and the
sealed notes field becomes a plain byte option. -/
structure SafeHouse where
  id : Nat
  operator : Nat
  name : String
  region : Region
  capabilities : List SafeHouseCapability
  capacity : Nat
  current_occupancy : Nat
  status : SafeHouseStatus
  accommodations : List Accommodation
  max_stay_days : Option Nat
  notes : Option Bytes
  verified : Bool
  registered_at : Int
  updated_at : Int

/-- SafeHouse::new (safe_house.rs lines 138-162); the fresh id and the
current coarse timestamp are passed in explicitly. -/
def SafeHouse.new (id operator : Nat) (name : String) (region : Region)
    (capacity : Nat) (now : Int) : SafeHouse :=
  { id := id
    operator := operator
    name := name
    region := region
    capabilities := []
    capacity := capacity
    current_occupancy := 0
    status := SafeHouseStatus.available
    accommodations := []
    max_stay_days := none
    notes := none
    verified := false
    registered_at := now
    updated_at := now }

/-- SafeHouse::has_capacity (safe_house.rs lines 165-167). -/
def SafeHouse.has_capacity (h : SafeHouse) (num_people : Nat) : Bool :=
  h.current_occupancy + num_people ≤ h.capacity

/-- SafeHouse::meets_needs (safe_house.rs lines 178-180). -/
def SafeHouse.meets_needs (h : SafeHouse) (needs : List SafeHouseCapability) : Bool :=
  needs.all (fun need => h.capabilities.contains need)

/-- SafeHouse::add_capability (safe_house.rs lines 188-193). -/
def SafeHouse.add_capability (h : SafeHouse) (c : SafeHouseCapability)
    (now : Int) : SafeHouse :=
  if h.capabilities.contains c then h
  else { h with capabilities := h.capabilities ++ [c], updated_at := now }

/-- SafeHouse::add_accommodation (safe_house.rs lines 196-201). -/
def SafeHouse.add_accommodation (h : SafeHouse) (a : Accommodation)
    (now : Int) : SafeHouse :=
  if h.accommodations.contains a then h
  else { h with accommodations := h.accommodations ++ [a], updated_at := now }

/-- SafeHouse::set_occupancy (safe_house.rs lines 204-214): stores the new
occupancy unconditionally, then sets the status to Occupied when the
occupancy reaches or exceeds the capacity, and reverts an Occupied status
to Available when it is below capacity. -/
def SafeHouse.set_occupancy (h : SafeHouse) (occupancy : Nat) (now : Int) :
    SafeHouse :=
  let h2 := { h with current_occupancy := occupancy, updated_at := now }
  if h2.capacity ≤ h2.current_occupancy then
    { h2 with status := SafeHouseStatus.occupied }
  else if h2.status = SafeHouseStatus.occupied then
    { h2 with status := SafeHouseStatus.available }
  else h2

/-- SafeHouse::verify (safe_house.rs lines 217-220). -/
def SafeHouse.verify (h : SafeHouse) (now : Int) : SafeHouse :=
  { h with verified := true, updated_at := now }

/-- SafeHouse::set_status (safe_house.rs lines 223-226). -/
def SafeHouse.set_status (h : SafeHouse) (status : SafeHouseStatus)
    (now : Int) : SafeHouse :=
  { h with status := status, updated_at := now }

/-- Safe-house states reachable by the operations of the claim when the
occupancy argument never exceeds the capacity, the capacity is positive,
and set_status is only used for the two externally-set statuses named by
the claim (Closed and TemporarilyUnavailable). -/
inductive SafeHouse.GuardedReach : SafeHouse → Prop where
  | new (id operator : Nat) (name : String) (region : Region)
      (capacity : Nat) (now : Int) (hcap : 0 < capacity) :
      SafeHouse.GuardedReach (SafeHouse.new id operator name region capacity now)
  | set_occupancy {h : SafeHouse} (occ : Nat) (now : Int)
      (hr : SafeHouse.GuardedReach h) (hocc : occ ≤ h.capacity) :
      SafeHouse.GuardedReach (h.set_occupancy occ now)
  | set_status {h : SafeHouse} (st : SafeHouseStatus) (now : Int)
      (hr : SafeHouse.GuardedReach h)
      (hst : st = SafeHouseStatus.closed ∨ st = SafeHouseStatus.temporarilyUnavailable) :
      SafeHouse.GuardedReach (h.set_status st now)
  | verify {h : SafeHouse} (now : Int) (hr : SafeHouse.GuardedReach h) :
      SafeHouse.GuardedReach (h.verify now)
  | add_capability {h : SafeHouse} (c : SafeHouseCapability) (now : Int)
      (hr : SafeHouse.GuardedReach h) :
      SafeHouse.GuardedReach (h.add_capability c now)
  | add_accommodation {h : SafeHouse} (a : Accommodation) (now : Int)
      (hr : SafeHouse.GuardedReach h) :
      SafeHouse.GuardedReach (h.add_accommodation a now)


/-! ## Trust graph (src/core/src/trust/graph.rs)

PersonId values are 128-bit UUIDs compared for equality only; they are
embedded as naturals.  The two HashMaps of the Rust struct are embedded as
association lists with unique keys (the HashMap invariant); HashMap
iteration order is arbitrary in Rust, the embedding iterates in list
order, and no theorem below depends on the order. -/

/-- HashMap::insert on an association list: replace the value of an
existing key, otherwise append the new binding. -/
def assocInsert {α β : Type} [DecidableEq α] (k : α) (v : β)
    (l : List (α × β)) : List (α × β) :=
  if (l.lookup k).isSome then
    l.map (fun p => if p.1 = k then (k, v) else p)
  else l ++ [(k, v)]

/-- A path of trust from one person to another (graph.rs, struct TrustPath). -/
structure TrustPath where
  nodes : List Nat
  trust_levels : List TrustLevel
  strength : TrustLevel
  hops : Nat
deriving DecidableEq

/-- The web-of-trust graph (graph.rs, struct TrustGraph). -/
structure TrustGraph where
  edges : List (Nat × List (Nat × TrustLevel))
  path_cache : List ((Nat × Nat) × Option TrustPath)
deriving DecidableEq

/-- TrustGraph::new (graph.rs lines 36-41). -/
def TrustGraph.newGraph : TrustGraph := { edges := [], path_cache := [] }

/-- TrustGraph::add_trust (graph.rs lines 44-52): insert into the inner
map of the source (creating it if missing) and clear the path cache. -/
def TrustGraph.add_trust (g : TrustGraph) (src dst : Nat) (level : TrustLevel) :
    TrustGraph :=
  { edges :=
      match g.edges.lookup src with
      | some _ =>
          g.edges.map (fun e => if e.1 = src then (e.1, assocInsert dst level e.2) else e)
      | none => g.edges ++ [(src, [(dst, level)])]
    path_cache := [] }

/-- TrustGraph::remove_trust (graph.rs lines 55-62): remove the binding
from the inner map of the source when present and clear the path cache. -/
def TrustGraph.remove_trust (g : TrustGraph) (src dst : Nat) : TrustGraph :=
  { edges :=
      match g.edges.lookup src with
      | some _ =>
          g.edges.map (fun e =>
            if e.1 = src then (e.1, e.2.eraseP (fun p => p.1 == dst)) else e)
      | none => g.edges
    path_cache := [] }

/-- TrustGraph::get_trust (graph.rs lines 65-67). -/
def TrustGraph.get_trust (g : TrustGraph) (src dst : Nat) : Option TrustLevel :=
  (g.edges.lookup src).bind (fun trusted => trusted.lookup dst)

/-- TrustGraph::get_trusted (graph.rs lines 70-75). -/
def TrustGraph.get_trusted (g : TrustGraph) (person : Nat) :
    List (Nat × TrustLevel) :=
  match g.edges.lookup person with
  | some trusted => trusted
  | none => []

/-- TrustGraph::get_trusters (graph.rs lines 78-88). -/
def TrustGraph.get_trusters (g : TrustGraph) (person : Nat) :
    List (Nat × TrustLevel) :=
  g.edges.filterMap (fun e => (e.2.lookup person).map (fun lvl => (e.1, lvl)))

/-- The while loop of TrustGraph::reconstruct_path (graph.rs lines
153-165): follow parent links from the target back to the source,
accumulating nodes and levels; stop at the source, at a missing parent
entry, or when the fuel runs out (the Rust loop has no fuel; every parent
map produced by the search reaches the source in at most parent-length
steps, so the fuel used by reconstruct_path below never runs out). -/
def reconGo (parent : List (Nat × (Nat × TrustLevel))) (src : Nat) :
    Nat → List Nat → List TrustLevel → Nat → List Nat × List TrustLevel
  | _, nodes, levels, 0 => (nodes, levels)
  | current, nodes, levels, fuel + 1 =>
    if current = src then (nodes, levels)
    else
      match parent.lookup current with
      | some (prev, l) =>
          reconGo parent src prev (nodes ++ [prev]) (levels ++ [l]) fuel
      | none => (nodes, levels)

/-- TrustGraph::reconstruct_path (graph.rs lines 147-179). -/
def TrustGraph.reconstruct_path (src dst : Nat)
    (parent : List (Nat × (Nat × TrustLevel))) : TrustPath :=
  let acc := reconGo parent src dst [dst] [] (parent.length + 1)
  let nodes := acc.1.reverse
  let trust_levels := acc.2.reverse
  { nodes := nodes
    trust_levels := trust_levels
    strength := (trustLevelListMin trust_levels).getD TrustLevel.unknown
    hops := nodes.length - 1 }

/-- One neighbour step of the BFS expansion (graph.rs lines 131-137):
an unvisited neighbour is marked visited, given a parent entry, and
enqueued one level deeper. -/
def bfsPush (current depth : Nat)
    (st : List (Nat × Nat) × List Nat × List (Nat × (Nat × TrustLevel)))
    (nl : Nat × TrustLevel) :
    List (Nat × Nat) × List Nat × List (Nat × (Nat × TrustLevel)) :=
  if nl.1 ∈ st.2.1 then st
  else
    (st.1 ++ [(nl.1, depth + 1)], st.2.1 ++ [nl.1],
      st.2.2 ++ [(nl.1, (current, nl.2))])

/-- The neighbour loop of the BFS (graph.rs lines 130-138). -/
def bfsExpand (nbrs : List (Nat × TrustLevel)) (q : List (Nat × Nat))
    (v : List Nat) (par : List (Nat × (Nat × TrustLevel)))
    (current depth : Nat) :
    List (Nat × Nat) × List Nat × List (Nat × (Nat × TrustLevel)) :=
  nbrs.foldl (bfsPush current depth) (q, v, par)

/-- The BFS while loop of TrustGraph::find_path (graph.rs lines 117-139):
pop the queue front; skip it when its depth has reached max_hops; return
the reconstructed path when it is the target; otherwise enqueue its
unvisited neighbours.  The Rust loop needs no fuel; bfsFuel below
dominates the number of iterations because every enqueued node is fresh. -/
def TrustGraph.bfs_loop (g : TrustGraph) (src dst maxHops : Nat) :
    Nat → List (Nat × Nat) → List Nat → List (Nat × (Nat × TrustLevel)) →
    Option TrustPath
  | 0, _, _, _ => none
  | fuel + 1, q, v, par =>
    match q with
    | [] => none
    | (current, depth) :: rest =>
      if maxHops ≤ depth then g.bfs_loop src dst maxHops fuel rest v par
      else if current = dst then some (TrustGraph.reconstruct_path src dst par)
      else
        match g.edges.lookup current with
        | none => g.bfs_loop src dst maxHops fuel rest v par
        | some nbrs =>
          let st := bfsExpand nbrs rest v par current depth
          g.bfs_loop src dst maxHops fuel st.1 st.2.1 st.2.2

/-- Fuel bound for the BFS loop: one more than the initial queue plus the
total number of neighbour entries (every iteration pops one entry and
every enqueued node is a fresh neighbour target). -/
def TrustGraph.bfsFuel (g : TrustGraph) : Nat :=
  2 + (g.edges.map (fun e => e.2.length)).sum

/-- TrustGraph::find_path (graph.rs lines 91-144): consult the cache,
else return a direct edge as an immediate one-hop path, else run the BFS;
the result (even a miss) is recorded in the cache. -/
def TrustGraph.find_path (g : TrustGraph) (src dst maxHops : Nat) :
    Option TrustPath × TrustGraph :=
  match g.path_cache.lookup (src, dst) with
  | some cached => (cached, g)
  | none =>
    match g.get_trust src dst with
    | some level =>
        let path : TrustPath :=
          { nodes := [src, dst], trust_levels := [level],
            strength := level, hops := 1 }
        (some path,
          { g with path_cache := assocInsert (src, dst) (some path) g.path_cache })
    | none =>
        let r := g.bfs_loop src dst maxHops g.bfsFuel [(src, 0)] [src] []
        (r, { g with path_cache := assocInsert (src, dst) r g.path_cache })

/-- Edge list check for a node/level path: consecutive nodes are joined
by graph edges carrying exactly the listed levels. -/
def pathListOk (g : TrustGraph) : List Nat → List TrustLevel → Bool
  | a :: b :: rest, l :: ls =>
      decide (g.get_trust a b = some l) && pathListOk g (b :: rest) ls
  | [_], [] => true
  | _, _ => false

/-- A trust path from src to dst as the claim quantifies over them: a
node list starting at src and ending at dst whose consecutive pairs are
graph edges labelled by the level list, with at least one edge. -/
def IsTrustPathList (g : TrustGraph) (src dst : Nat) (nodes : List Nat)
    (levels : List TrustLevel) : Prop :=
  nodes.head? = some src ∧ nodes.getLast? = some dst ∧
    pathListOk g nodes levels = true ∧ 1 ≤ levels.length

/-- Walks in the trust graph measured by their number of edges. -/
inductive WalkLen (g : TrustGraph) : Nat → Nat → Nat → Prop where
  | nil (a : Nat) : WalkLen g a a 0
  | cons {a b c n : Nat} (l : TrustLevel) (h : g.get_trust a b = some l)
      (w : WalkLen g b c n) : WalkLen g a c (n + 1)

/-- Walks all of whose nodes after the first avoid a given list. -/
inductive WalkA (g : TrustGraph) (v : List Nat) : Nat → Nat → Nat → Prop where
  | nil (a : Nat) : WalkA g v a a 0
  | cons {a b c n : Nat} (l : TrustLevel) (h : g.get_trust a b = some l)
      (hb : b ∉ v) (w : WalkA g v b c n) : WalkA g v a c (n + 1)

/-- Chains of parent-map links from a node back to the BFS root, measured
by their length. -/
inductive ChainLen (par : List (Nat × (Nat × TrustLevel))) (root : Nat) :
    Nat → Nat → Prop where
  | zero : ChainLen par root root 0
  | succ {n m d : Nat} (l : TrustLevel) (h : par.lookup n = some (m, l))
      (hc : ChainLen par root m d) : ChainLen par root n (d + 1)

/-- Well-formedness of the graph value: the outer and all inner
association lists have pairwise-distinct keys - the invariant every Rust
HashMap satisfies. -/
def TrustGraph.WF (g : TrustGraph) : Prop :=
  (g.edges.map Prod.fst).Nodup ∧ ∀ e ∈ g.edges, (e.2.map Prod.fst).Nodup


/-! ## Errors (src/core/src/error.rs) -/

/-- Core error type (error.rs, enum Error); foreign payloads are carried
as message strings. -/
inductive RailError where
  | crypto (msg : String)
  | database (msg : String)
  | network (msg : String)
  | identity (msg : String)
  | trust (msg : String)
  | invalid (msg : String)
  | notFound (msg : String)
  | permissionDenied (msg : String)
  | timeout (msg : String)
  | io (msg : String)
  | serializationError (msg : String)
  | internal (msg : String)
deriving DecidableEq

/-! ## Mailbox delivery (src/core/src/veilid_client/messaging.rs)

A mailbox is a DHT record with 50 subkeys.  A subkey read returns
Ok(None) (empty), Ok(Some(data)) (occupied), or Err (unreadable); the
send loop treats unreadable subkeys exactly like occupied ones (it logs
and continues).  The DHT state is embedded as a list of 50 cells. -/

/-- Observable state of one mailbox subkey. -/
inductive DhtCell where
  | empty
  | occupied (data : Bytes)
  | unreadable
deriving DecidableEq

/-- The probing loop of VeilidMailbox::send_message (messaging.rs lines
115-146): starting at subkey s, write the serialised message into the
first empty subkey below 50 and report success; report failure past
subkey 49.  Occupied and unreadable subkeys are skipped alike. -/
def sendProbe (mb : List DhtCell) (msg : Bytes) (s : Nat) :
    List DhtCell × Bool :=
  if h : s < 50 then
    if mb.getD s DhtCell.unreadable = DhtCell.empty then
      (mb.set s (DhtCell.occupied msg), true)
    else sendProbe mb msg (s + 1)
  else (mb, false)
termination_by 50 - s

/-- VeilidMailbox::send_message (messaging.rs lines 89-153), restricted
to its effect on the recipient mailbox: run the probing loop from subkey
0 and fail with the mailbox-full Network error when nothing was written. -/
def VeilidMailbox.send_message (mb : List DhtCell) (serialized : Bytes) :
    List DhtCell × Except RailError Unit :=
  let r := sendProbe mb serialized 0
  if r.2 then (r.1, Except.ok ())
  else (mb, Except.error (RailError.network "Mailbox full - no empty subkeys"))

/-! ## Transportation (src/core/src/assistance/transportation.rs) -/

/-- Type of vehicle (transportation.rs, enum VehicleType). -/
inductive VehicleType where
  | car
  | suv
  | van
  | truck
  | bus
  | motorcycle
  | bicycle
  | boat
  | other
deriving DecidableEq

/-- Special transport capabilities (transportation.rs, enum TransportCapability). -/
inductive TransportCapability where
  | wheelchairAccessible
  | childSeats
  | largeStorage
  | discreet
  | safeRoutes
  | longDistance
  | immediate
  | provisions
  | multilingual
  | petFriendly
deriving DecidableEq

/-- Transport requirements (transportation.rs, enum TransportRequirement). -/
inductive TransportRequirement where
  | wheelchairAccess
  | childSafety
  | luggage
  | discreet
  | avoidCheckpoints
  | longDistance
  | urgent
  | pets
deriving DecidableEq

/-- Travel timing (transportation.rs, enum TravelTiming). -/
inductive TravelTiming where
  | immediate
  | withinHours
  | withinDay
  | withinWeek
  | flexible
deriving DecidableEq

/-- Availability of transport (transportation.rs, enum Availability). -/
inductive TransportAvailability where
  | now
  | today
  | thisWeek
  | withNotice
  | unavailable
deriving DecidableEq

/-- Status of a transport offer or request (transportation.rs, enum TransportStatus). -/
inductive TransportStatus where
  | active
  | matched
  | inProgress
  | completed
  | cancelled
  | expired
deriving DecidableEq

/-- A transportation offer (transportation.rs, struct TransportOffer). -/
structure TransportOffer where
  id : Nat
  driver : Nat
  vehicle_type : VehicleType
  capacity : Nat
  service_regions : List Region
  max_distance_km : Option Nat
  capabilities : List TransportCapability
  availability : TransportAvailability
  status : TransportStatus
  notes : Option Bytes
  created_at : Int
  expires_at : Int

/-- A transportation request (transportation.rs, struct TransportRequest). -/
structure TransportRequest where
  id : Nat
  requester : Nat
  from_region : Region
  to_region : Region
  num_people : Nat
  num_children : Nat
  when : TravelTiming
  requirements : List TransportRequirement
  notes : Option Bytes
  status : TransportStatus
  created_at : Int
  expires_at : Int

/-- The requirement-to-capability mapping inside TransportOffer::can_serve
(transportation.rs lines 295-304). -/
def requirementCapability : TransportRequirement → TransportCapability
  | .wheelchairAccess => .wheelchairAccessible
  | .childSafety => .childSeats
  | .luggage => .largeStorage
  | .discreet => .discreet
  | .avoidCheckpoints => .safeRoutes
  | .longDistance => .longDistance
  | .urgent => .immediate
  | .pets => .petFriendly

/-- TransportOffer::can_serve (transportation.rs lines 269-312): active
status, sufficient capacity, a service region within 50 km of either
endpoint of the request, and every requirement covered by the mapped
capability. -/
def TransportOffer.can_serve (o : TransportOffer) (r : TransportRequest) : Bool :=
  if o.status ≠ TransportStatus.active then false
  else if o.capacity < r.num_people then false
  else
    let serves_from := o.service_regions.any
      (fun reg => Region.distance_lt_km r.from_region reg 50)
    let serves_to := o.service_regions.any
      (fun reg => Region.distance_lt_km r.to_region reg 50)
    if ¬ serves_from ∧ ¬ serves_to then false
    else r.requirements.all
      (fun req => o.capabilities.contains (requirementCapability req))


/-! ## Identity repository (src/core/src/storage/repository/identity.rs)

The identity table is embedded as a list of rows; the id column is the
SQL primary key, so well-formed tables have pairwise-distinct ids.
Each repository call is one function; set_primary, whose two UPDATE
statements run inside a single transaction in the source, is one atomic
function here. -/

/-- A row of the identity table (schema.rs / identity.rs row_to_identity):
id, name, fingerprint, encrypted keypair blob, creation time, primary flag. -/
structure IdentityRow where
  id : Nat
  name : String
  fingerprint : Bytes
  keypair_encrypted : Bytes
  created_at : Int
  is_primary : Bool
deriving DecidableEq

/-- IdentityRepository::save (identity.rs lines 22-51): INSERT OR REPLACE
keyed on id - any existing row with the same id is replaced, and no other
row is touched. -/
def IdentityRepository.save (identity : IdentityRow) (tbl : List IdentityRow) :
    List IdentityRow :=
  tbl.filter (fun r => r.id ≠ identity.id) ++ [identity]

/-- IdentityRepository::update_name (identity.rs lines 107-116). -/
def IdentityRepository.update_name (id : Nat) (name : String)
    (tbl : List IdentityRow) : List IdentityRow :=
  tbl.map (fun r => if r.id = id then { r with name := name } else r)

/-- IdentityRepository::set_primary (identity.rs lines 119-137): inside
one transaction, clear is_primary on every row, then set it on the row
with the given id. -/
def IdentityRepository.set_primary (id : Nat) (tbl : List IdentityRow) :
    List IdentityRow :=
  (tbl.map (fun r => { r with is_primary := false })).map
    (fun r => if r.id = id then { r with is_primary := true } else r)

/-- IdentityRepository::delete (identity.rs lines 140-162): look up the
row (a missing row surfaces the no-rows database error), refuse to delete
the primary identity, otherwise delete the row. -/
def IdentityRepository.delete (id : Nat) (tbl : List IdentityRow) :
    Except RailError (List IdentityRow) :=
  match tbl.find? (fun r => r.id == id) with
  | none => Except.error (RailError.database "Query returned no rows")
  | some r =>
    if r.is_primary then
      Except.error (RailError.permissionDenied "Cannot delete primary identity")
    else Except.ok (tbl.filter (fun r2 => r2.id ≠ id))

/-- At most one stored identity row is flagged primary. -/
abbrev atMostOnePrimary (tbl : List IdentityRow) : Prop :=
  tbl.countP (fun r => r.is_primary) ≤ 1

/-- Claim C3, as stated, restricted to the save operation (the other
three operations do preserve the invariant; see the amended theorem). -/
def c3ClaimStatement : Prop :=
  ∀ (i : IdentityRow) (tbl : List IdentityRow),
    atMostOnePrimary tbl → atMostOnePrimary (IdentityRepository.save i tbl)


/-! ## SHA-256 / SHA-512, HMAC, HKDF and the identity key hierarchy
(src/core/src/identity/keypair.rs)

The sha2 and hkdf crates used by the source implement FIPS 180-4 and
RFC 2104 / RFC 5869; they are implemented here in full over byte lists. -/

/-- Truncation to a 32-bit word. -/
def w32 (x : Nat) : Nat := x % 4294967296

/-- Truncation to a 64-bit word. -/
def w64 (x : Nat) : Nat := x % 18446744073709551616

/-- Right rotation of a 32-bit word. -/
def rotr32 (n x : Nat) : Nat := w32 ((x >>> n) ||| (x <<< (32 - n)))

/-- Right rotation of a 64-bit word. -/
def rotr64 (n x : Nat) : Nat := w64 ((x >>> n) ||| (x <<< (64 - n)))

/-- Big-endian bytes of a value, most significant first. -/
def natToBytesBE (n v : Nat) : Bytes :=
  (List.range n).map (fun i => (v >>> (8 * (n - 1 - i))) % 256)

/-- Big-endian 32-bit words from bytes (groups of four). -/
def bytesToWords32 : Bytes → List Nat
  | b0 :: b1 :: b2 :: b3 :: rest =>
      ((b0 % 256) * 16777216 + (b1 % 256) * 65536 + (b2 % 256) * 256 + b3 % 256)
        :: bytesToWords32 rest
  | _ => []

/-- Big-endian 64-bit words from bytes (groups of eight). -/
def bytesToWords64 : Bytes → List Nat
  | b0 :: b1 :: b2 :: b3 :: b4 :: b5 :: b6 :: b7 :: rest =>
      ((((((((b0 % 256) * 256 + b1 % 256) * 256 + b2 % 256) * 256 + b3 % 256) * 256
        + b4 % 256) * 256 + b5 % 256) * 256 + b6 % 256) * 256 + b7 % 256)
        :: bytesToWords64 rest
  | _ => []

def sha256K : List Nat :=
  [1116352408, 1899447441, 3049323471, 3921009573,
   961987163, 1508970993, 2453635748, 2870763221,
   3624381080, 310598401, 607225278, 1426881987,
   1925078388, 2162078206, 2614888103, 3248222580,
   3835390401, 4022224774, 264347078, 604807628,
   770255983, 1249150122, 1555081692, 1996064986,
   2554220882, 2821834349, 2952996808, 3210313671,
   3336571891, 3584528711, 113926993, 338241895,
   666307205, 773529912, 1294757372, 1396182291,
   1695183700, 1986661051, 2177026350, 2456956037,
   2730485921, 2820302411, 3259730800, 3345764771,
   3516065817, 3600352804, 4094571909, 275423344,
   430227734, 506948616, 659060556, 883997877,
   958139571, 1322822218, 1537002063, 1747873779,
   1955562222, 2024104815, 2227730452, 2361852424,
   2428436474, 2756734187, 3204031479, 3329325298]

def sha256H0 : List Nat :=
  [1779033703, 3144134277, 1013904242, 2773480762,
   1359893119, 2600822924, 528734635, 1541459225]

/-- Small sigma-0 of SHA-256. -/
def ssig0_256 (x : Nat) : Nat := rotr32 7 x ^^^ rotr32 18 x ^^^ (x >>> 3)

/-- Small sigma-1 of SHA-256. -/
def ssig1_256 (x : Nat) : Nat := rotr32 17 x ^^^ rotr32 19 x ^^^ (x >>> 10)

/-- Big sigma-0 of SHA-256. -/
def bsig0_256 (x : Nat) : Nat := rotr32 2 x ^^^ rotr32 13 x ^^^ rotr32 22 x

/-- Big sigma-1 of SHA-256. -/
def bsig1_256 (x : Nat) : Nat := rotr32 6 x ^^^ rotr32 11 x ^^^ rotr32 25 x

/-- Choice function of the SHA family. -/
def shaCh (x y z : Nat) : Nat := (x &&& y) ^^^ ((x ^^^ 0xffffffffffffffff) &&& z)

/-- Majority function of the SHA family. -/
def shaMaj (x y z : Nat) : Nat := (x &&& y) ^^^ (x &&& z) ^^^ (y &&& z)

/-- Message-schedule extension, parameterised by word arithmetic. -/
def shaExtend (trunc : Nat → Nat) (s0 s1 : Nat → Nat) :
    List Nat → Nat → List Nat
  | ws, 0 => ws
  | ws, k + 1 =>
      let n := ws.length
      shaExtend trunc s0 s1
        (ws ++ [trunc (s1 (ws.getD (n - 2) 0) + ws.getD (n - 7) 0 +
          s0 (ws.getD (n - 15) 0) + ws.getD (n - 16) 0)]) k

/-- One compression round, parameterised by word arithmetic. -/
def shaRound (trunc : Nat → Nat) (b0 b1 : Nat → Nat)
    (st : List Nat) (kw : Nat × Nat) : List Nat :=
  match st with
  | [a, b, c, d, e, f, g, hh] =>
      let t1 := trunc (hh + b1 e + shaCh e f g + kw.1 + kw.2)
      let t2 := trunc (b0 a + shaMaj a b c)
      [trunc (t1 + t2), a, b, c, trunc (d + t1), e, f, g]
  | st2 => st2

/-- SHA-256 compression of one 64-byte block. -/
def sha256Compress (h : List Nat) (block : Bytes) : List Nat :=
  let ws := shaExtend w32 ssig0_256 ssig1_256 (bytesToWords32 block) 48
  let st := (sha256K.zip ws).foldl (shaRound w32 bsig0_256 bsig1_256) h
  (h.zip st).map (fun p => w32 (p.1 + p.2))

/-- SHA-256 padding: 0x80, zeros, 8-byte big-endian bit length. -/
def sha256Pad (msg : Bytes) : Bytes :=
  msg ++ [128] ++ List.replicate ((64 + 55 - msg.length % 64) % 64) 0 ++
    natToBytesBE 8 (msg.length * 8)

/-- Iterated SHA-256 compression over 64-byte chunks; the count argument
is the number of chunks, so the recursion is structural and the kernel
can evaluate it. -/
def sha256Chunks (h : List Nat) (msg : Bytes) : Nat → List Nat
  | 0 => h
  | k + 1 => sha256Chunks (sha256Compress h (msg.take 64)) (msg.drop 64) k

/-- SHA-256 of a byte string. -/
def sha256 (msg : Bytes) : Bytes :=
  let p := sha256Pad msg
  ((sha256Chunks sha256H0 p (p.length / 64)).map (natToBytesBE 4)).flatten

def sha512K : List Nat :=
  [4794697086780616226, 8158064640168781261, 13096744586834688815,
   16840607885511220156, 4131703408338449720, 6480981068601479193,
   10538285296894168987, 12329834152419229976, 15566598209576043074,
   1334009975649890238, 2608012711638119052, 6128411473006802146,
   8268148722764581231, 9286055187155687089, 11230858885718282805,
   13951009754708518548, 16472876342353939154, 17275323862435702243,
   1135362057144423861, 2597628984639134821, 3308224258029322869,
   5365058923640841347, 6679025012923562964, 8573033837759648693,
   10970295158949994411, 12119686244451234320, 12683024718118986047,
   13788192230050041572, 14330467153632333762, 15395433587784984357,
   489312712824947311, 1452737877330783856, 2861767655752347644,
   3322285676063803686, 5560940570517711597, 5996557281743188959,
   7280758554555802590, 8532644243296465576, 9350256976987008742,
   10552545826968843579, 11727347734174303076, 12113106623233404929,
   14000437183269869457, 14369950271660146224, 15101387698204529176,
   15463397548674623760, 17586052441742319658, 1182934255886127544,
   1847814050463011016, 2177327727835720531, 2830643537854262169,
   3796741975233480872, 4115178125766777443, 5681478168544905931,
   6601373596472566643, 7507060721942968483, 8399075790359081724,
   8693463985226723168, 9568029438360202098, 10144078919501101548,
   10430055236837252648, 11840083180663258601, 13761210420658862357,
   14299343276471374635, 14566680578165727644, 15097957966210449927,
   16922976911328602910, 17689382322260857208, 500013540394364858,
   748580250866718886, 1242879168328830382, 1977374033974150939,
   2944078676154940804, 3659926193048069267, 4368137639120453308,
   4836135668995329356, 5532061633213252278, 6448918945643986474,
   6902733635092675308, 7801388544844847127]

def sha512H0 : List Nat :=
  [7640891576956012808, 13503953896175478587, 4354685564936845355,
   11912009170470909681, 5840696475078001361, 11170449401992604703,
   2270897969802886507, 6620516959819538809]

/-- Small sigma-0 of SHA-512. -/
def ssig0_512 (x : Nat) : Nat := rotr64 1 x ^^^ rotr64 8 x ^^^ (x >>> 7)

/-- Small sigma-1 of SHA-512. -/
def ssig1_512 (x : Nat) : Nat := rotr64 19 x ^^^ rotr64 61 x ^^^ (x >>> 6)

/-- Big sigma-0 of SHA-512. -/
def bsig0_512 (x : Nat) : Nat := rotr64 28 x ^^^ rotr64 34 x ^^^ rotr64 39 x

/-- Big sigma-1 of SHA-512. -/
def bsig1_512 (x : Nat) : Nat := rotr64 14 x ^^^ rotr64 18 x ^^^ rotr64 41 x

/-- SHA-512 compression of one 128-byte block. -/
def sha512Compress (h : List Nat) (block : Bytes) : List Nat :=
  let ws := shaExtend w64 ssig0_512 ssig1_512 (bytesToWords64 block) 64
  let st := (sha512K.zip ws).foldl (shaRound w64 bsig0_512 bsig1_512) h
  (h.zip st).map (fun p => w64 (p.1 + p.2))

/-- SHA-512 padding: 0x80, zeros, 16-byte big-endian bit length. -/
def sha512Pad (msg : Bytes) : Bytes :=
  msg ++ [128] ++ List.replicate ((128 + 111 - msg.length % 128) % 128) 0 ++
    natToBytesBE 16 (msg.length * 8)

/-- Iterated SHA-512 compression over 128-byte chunks. -/
def sha512Chunks (h : List Nat) (msg : Bytes) : Nat → List Nat
  | 0 => h
  | k + 1 => sha512Chunks (sha512Compress h (msg.take 128)) (msg.drop 128) k

/-- SHA-512 of a byte string. -/
def sha512 (msg : Bytes) : Bytes :=
  let p := sha512Pad msg
  ((sha512Chunks sha512H0 p (p.length / 128)).map (natToBytesBE 8)).flatten

/-- HMAC over an arbitrary hash with the given block size. -/
def hmac (hash : Bytes → Bytes) (blockSize : Nat) (key msg : Bytes) : Bytes :=
  let k0 := if blockSize < key.length then hash key else key
  let k1 := k0 ++ List.replicate (blockSize - k0.length) 0
  hash ((k1.map (fun b => b ^^^ 92)) ++ hash ((k1.map (fun b => b ^^^ 54)) ++ msg))

/-- HMAC-SHA-256 (block size 64). -/
def hmacSha256 (key msg : Bytes) : Bytes := hmac sha256 64 key msg

/-- HMAC-SHA-512 (block size 128). -/
def hmacSha512 (key msg : Bytes) : Bytes := hmac sha512 128 key msg

/-- RFC 5869 HKDF with SHA-256 and no salt (the salt defaults to a zero
hash-length string), producing at most one hash block of output. -/
def hkdfSha256NoSalt (ikm info : Bytes) (len : Nat) : Bytes :=
  (hmacSha256 (hmacSha256 (List.replicate 32 0) ikm) (info ++ [1])).take len

/-- RFC 5869 HKDF with SHA-512 and no salt, producing at most one hash
block of output. -/
def hkdfSha512NoSalt (ikm info : Bytes) (len : Nat) : Bytes :=
  (hmacSha512 (hmacSha512 (List.replicate 64 0) ikm) (info ++ [1])).take len

/-- ASCII bytes of "underground-railroad-signing" (keypair.rs line 33). -/
def signingLabel : Bytes := [117, 110, 100, 101, 114, 103, 114, 111, 117, 110, 100, 45, 114, 97, 105, 108, 114, 111, 97, 100, 45, 115, 105, 103, 110, 105, 110, 103]

/-- ASCII bytes of "underground-railroad-encryption" (keypair.rs line 37). -/
def encryptionLabel : Bytes := [117, 110, 100, 101, 114, 103, 114, 111, 117, 110, 100, 45, 114, 97, 105, 108, 114, 111, 97, 100, 45, 101, 110, 99, 114, 121, 112, 116, 105, 111, 110]

/-- Abstract keypair generation from a 32-byte seed: stands for
SigningKey::from_seed and EncryptionKey::from_seed (keypair.rs lines
91-101 and 201-225), whose outputs the claim does not constrain. -/
structure KeygenFns (S E : Type) where
  signingFromSeed : Bytes → S
  encryptionFromSeed : Bytes → E

/-- IdentityKeypair::from_seed (keypair.rs lines 25-44):
Hkdf::<Sha256>::new(None, seed) - HKDF extract with the default zero salt
over SHA-256 - followed by two 32-byte expansions under the two labels
(32 bytes is one SHA-256 output, so each expansion is a single HMAC over
the label and the counter byte 1), whose outputs seed the signing and the
encryption keypair generators. -/
def IdentityKeypair.from_seed {S E : Type} (kg : KeygenFns S E) (seed : Bytes) :
    S × E :=
  let prk := hmacSha256 (List.replicate 32 0) seed
  let signing_seed := (hmacSha256 prk (signingLabel ++ [1])).take 32
  let encryption_seed := (hmacSha256 prk (encryptionLabel ++ [1])).take 32
  (kg.signingFromSeed signing_seed, kg.encryptionFromSeed encryption_seed)

/-- The seed expansion exactly as the spec words it ("the identity seed
itself expands (via SHA-512 extract-then-expand) to two further 32-byte
seeds"): the same construction with SHA-512 in place of SHA-256.  Named
for comparison against the source definition above. -/
def identityKeypairSeedsSpec512 (seed : Bytes) : Bytes × Bytes :=
  (hkdfSha512NoSalt seed signingLabel 32, hkdfSha512NoSalt seed encryptionLabel 32)

/-- Identity keypair generators returning the seeds themselves, used to
observe the seed bytes that from_seed feeds the generators. -/
def seedObservingKeygen : KeygenFns Bytes Bytes :=
  { signingFromSeed := fun b => b, encryptionFromSeed := fun b => b }

/-- ASCII bytes of the suffix "-signing". -/
def suffixSigning : Bytes := [45, 115, 105, 103, 110, 105, 110, 103]

/-- ASCII bytes of the suffix "-encryption". -/
def suffixEncryption : Bytes :=
  [45, 101, 110, 99, 114, 121, 112, 116, 105, 111, 110]


/-! ## Hybrid message encryption (src/core/src/messaging/encryption.rs)

The external primitives - x25519_dalek, pqcrypto kyber1024 and
chacha20poly1305 - are library calls, not code of this repository; they
are modelled as the fields of HybridPrims, and each theorem assumes the
standard functional laws of the primitive it needs (Diffie-Hellman
commutativity, KEM correctness, AEAD round-trip) plus, for the tampering
half of C1, ideal authenticity: a modified ciphertext, nonce or key never
authenticates.  Real AEADs provide that only up to a 2^-128 forgery
bound, which is the claim's intent; the theorems verify that the glue
code of encryption.rs inherits it.  The CSPRNG draws (ephemeral scalar,
KEM coins, nonce) are explicit arguments. -/

/-- Byte length of a Kyber1024 public key in the pqcrypto crate. -/
def kyber1024PublicKeyBytes : Nat := 1568

/-- Byte length of a Kyber1024 secret key in the pqcrypto crate. -/
def kyber1024SecretKeyBytes : Nat := 3168

/-- Byte length of a Kyber1024 ciphertext in the pqcrypto crate. -/
def kyber1024CiphertextBytes : Nat := 1568

/-- An encrypted message (encryption.rs, struct EncryptedMessage).  The
tag field is always empty: the tag is embedded in the ciphertext. -/
structure EncryptedMessage where
  ciphertext : Bytes
  nonce : Bytes
  tag : Bytes
  ephemeral_x25519_public_key : Bytes
  kyber_ciphertext : Bytes
deriving DecidableEq

/-- Public keys needed for message encryption (encryption.rs, struct
RecipientPublicKeys). -/
structure RecipientPublicKeys where
  x25519 : Bytes
  kyber : Bytes

/-- The external primitives used by encryption.rs. -/
structure HybridPrims where
  x25519 : Bytes → Bytes → Bytes
  x25519Base : Bytes → Bytes
  kyberEncaps : Bytes → Bytes → Bytes × Bytes
  kyberDecaps : Bytes → Bytes → Bytes
  hkdfSha512Msg : Bytes → Bytes
  chachaEncrypt : Bytes → Bytes → Bytes → Bytes
  chachaDecrypt : Bytes → Bytes → Bytes → Option Bytes

/-- derive_hybrid_message_key (encryption.rs lines 100-127): X25519 key
exchange, concatenation of the two shared secrets, HKDF-SHA512 expansion
under the label "underground-railroad-message-key-v1" (folded into the
hkdfSha512Msg field). -/
def derive_hybrid_message_key (P : HybridPrims)
    (x25519_secret x25519_their_public kyber_shared_secret : Bytes) : Bytes :=
  P.hkdfSha512Msg
    (P.x25519 x25519_secret x25519_their_public ++ kyber_shared_secret)

/-- encrypt_message_hybrid (encryption.rs lines 151-199).  The Kyber
public key is length-validated by PublicKey::from_bytes; the ephemeral
scalar, the KEM coins and the nonce are the explicit random inputs. -/
def encrypt_message_hybrid (P : HybridPrims) (plaintext : Bytes)
    (recipient_keys : RecipientPublicKeys)
    (ephemeral_secret coins nonce : Bytes) :
    Except RailError EncryptedMessage :=
  if recipient_keys.kyber.length = kyber1024PublicKeyBytes then
    let ephemeral_public := P.x25519Base ephemeral_secret
    let kc := P.kyberEncaps recipient_keys.kyber coins
    let message_key :=
      derive_hybrid_message_key P ephemeral_secret recipient_keys.x25519 kc.2
    Except.ok
      { ciphertext := P.chachaEncrypt message_key nonce plaintext
        nonce := nonce
        tag := []
        ephemeral_x25519_public_key := ephemeral_public
        kyber_ciphertext := kc.1 }
  else Except.error (RailError.crypto "Invalid Kyber public key")

/-- decrypt_message_hybrid (encryption.rs lines 202-241): recover the
ephemeral X25519 key (32-byte check via try_into), length-validate the
Kyber secret key and ciphertext (from_bytes), decapsulate, derive the
hybrid key, verify-and-decrypt.  Every failure is a Crypto error. -/
def decrypt_message_hybrid (P : HybridPrims) (encrypted : EncryptedMessage)
    (x25519_secret kyber_secret_key : Bytes) : Except RailError Bytes :=
  if encrypted.ephemeral_x25519_public_key.length = 32 then
    if kyber_secret_key.length = kyber1024SecretKeyBytes then
      if encrypted.kyber_ciphertext.length = kyber1024CiphertextBytes then
        let kyber_shared_secret :=
          P.kyberDecaps encrypted.kyber_ciphertext kyber_secret_key
        let message_key := derive_hybrid_message_key P x25519_secret
          encrypted.ephemeral_x25519_public_key kyber_shared_secret
        match P.chachaDecrypt message_key encrypted.nonce encrypted.ciphertext with
        | some m => Except.ok m
        | none => Except.error (RailError.crypto "Decryption failed")
      else Except.error (RailError.crypto "Invalid Kyber ciphertext")
    else Except.error (RailError.crypto "Invalid Kyber secret key")
  else Except.error (RailError.crypto "Invalid ephemeral public key")

/-- The round-trip-and-tampering property of claim C1 for one primitive
family and one choice of keys, randomness and plaintext: encryption
succeeds, decryption with the matching secrets returns the plaintext, and
changing any single byte of the ciphertext, nonce, ephemeral X25519
public key or Kyber ciphertext makes decryption fail with a Crypto
error. -/
def HybridRoundtripTamper (P : HybridPrims)
    (xsk ksk kpk eph coins nonce m : Bytes) : Prop :=
  ∃ em : EncryptedMessage,
    encrypt_message_hybrid P m { x25519 := P.x25519Base xsk, kyber := kpk }
      eph coins nonce = Except.ok em ∧
    decrypt_message_hybrid P em xsk ksk = Except.ok m ∧
    (∀ i v, i < em.ciphertext.length → v ≠ em.ciphertext.getD i 0 →
      ∃ e, decrypt_message_hybrid P
        { em with ciphertext := em.ciphertext.set i v } xsk ksk =
        Except.error (RailError.crypto e)) ∧
    (∀ i v, i < em.nonce.length → v ≠ em.nonce.getD i 0 →
      ∃ e, decrypt_message_hybrid P
        { em with nonce := em.nonce.set i v } xsk ksk =
        Except.error (RailError.crypto e)) ∧
    (∀ i v, i < em.ephemeral_x25519_public_key.length →
      v ≠ em.ephemeral_x25519_public_key.getD i 0 →
      ∃ e, decrypt_message_hybrid P
        { em with ephemeral_x25519_public_key :=
            em.ephemeral_x25519_public_key.set i v } xsk ksk =
        Except.error (RailError.crypto e)) ∧
    (∀ i v, i < em.kyber_ciphertext.length →
      v ≠ em.kyber_ciphertext.getD i 0 →
      ∃ e, decrypt_message_hybrid P
        { em with kyber_ciphertext := em.kyber_ciphertext.set i v } xsk ksk =
        Except.error (RailError.crypto e))

/-! Concrete primitives witnessing that the assumed laws are satisfiable:
toy instantiations over injectively-encoded byte lists. -/

/-- A byte list of the given positive length determined by one number. -/
def pad1 (x len : Nat) : Bytes := x :: List.replicate (len - 1) 0

/-- Order-insensitive injective pairing. -/
def natPairSym (a b : Nat) : Nat := Nat.pair (min a b) (max a b)

/-- Toy base-point multiplication: an injective 32-byte encoding. -/
def toyBase (s : Bytes) : Bytes := pad1 (Encodable.encode s) 32

/-- Toy Diffie-Hellman pairing, symmetric in the two parties and
injective in the point argument. -/
def toyX25519 (s p : Bytes) : Bytes :=
  pad1 (natPairSym (Encodable.encode (toyBase s)) (Encodable.encode p)) 32

/-- Toy KEM ciphertext of the pqcrypto Kyber1024 length. -/
def toyKemCt (pk r : Bytes) : Bytes :=
  pad1 (Nat.pair (Encodable.encode pk) (Encodable.encode r)) kyber1024CiphertextBytes

/-- Toy KEM encapsulation. -/
def toyKyberEncaps (pk r : Bytes) : Bytes × Bytes :=
  (toyKemCt pk r, pad1 (Encodable.encode (toyKemCt pk r) + 1) 32)

/-- Toy KEM decapsulation, injective in the ciphertext. -/
def toyKyberDecaps (ct _sk : Bytes) : Bytes :=
  pad1 (Encodable.encode ct + 1) 32

/-- Toy authentication tag binding key, nonce and message injectively. -/
def toyTag (k n m : Bytes) : Nat :=
  Nat.pair (Encodable.encode k) (Nat.pair (Encodable.encode n) (Encodable.encode m))

/-- Toy AEAD encryption: the message followed by its tag. -/
def toyChaChaEncrypt (k n m : Bytes) : Bytes := m ++ [toyTag k n m]

/-- Toy AEAD decryption: strip and verify the tag. -/
def toyChaChaDecrypt (k n c : Bytes) : Option Bytes :=
  match c.getLast? with
  | none => none
  | some t => if t = toyTag k n c.dropLast then some c.dropLast else none

/-- The toy primitive family. -/
def toyHybridPrims : HybridPrims :=
  { x25519 := toyX25519
    x25519Base := toyBase
    kyberEncaps := toyKyberEncaps
    kyberDecaps := toyKyberDecaps
    hkdfSha512Msg := fun x => x
    chachaEncrypt := toyChaChaEncrypt
    chachaDecrypt := toyChaChaDecrypt }


/-- Per-step descent lists of the BFS parent map: ChainList par root cur
ns ls holds when following parent links from cur visits the nodes of ns
in order (ending at root) with the recorded levels ls. -/
inductive ChainList (par : List (Nat × (Nat × TrustLevel))) (root : Nat) :
    Nat → List Nat → List TrustLevel → Prop where
  | zero : ChainList par root root [] []
  | succ {cur m : Nat} {l : TrustLevel} {ns : List Nat} {ls : List TrustLevel}
      (h : par.lookup cur = some (m, l)) (hc : ChainList par root m ns ls) :
      ChainList par root cur (m :: ns) (l :: ls)

/-- Invariant of the BFS loop state: the queue and parent map are
consistent with the graph and the visited list. -/
structure BfsInv (g : TrustGraph) (root : Nat) (q : List (Nat × Nat))
    (v : List Nat) (par : List (Nat × (Nat × TrustLevel))) : Prop where
  rootMem : root ∈ v
  rootNoPar : par.lookup root = none
  qSubV : ∀ p ∈ q, p.1 ∈ v
  qNodesNodup : (q.map Prod.fst).Nodup
  parKeysSubV : ∀ n pr, par.lookup n = some pr → n ∈ v
  parEdges : ∀ n m l, par.lookup n = some (m, l) → g.get_trust m n = some l
  qChains : ∀ n d, (n, d) ∈ q →
    ∃ ns ls, ChainList par root n ns ls ∧ ns.length = d ∧ ls.length = d ∧
      d ≤ par.length
  depthsSorted : List.Pairwise (fun a b => a ≤ b ∧ b ≤ a + 1) (q.map Prod.snd)

/-- All neighbour targets occurring in the graph, deduplicated. -/
def TrustGraph.bfsTargets (g : TrustGraph) : List Nat :=
  ((g.edges.map (fun e => e.2.map Prod.fst)).flatten).dedup

/-- Termination potential of the BFS loop: queue length plus the number
of never-visited potential targets.  Every iteration decreases it. -/
def TrustGraph.bfsPhi (g : TrustGraph) (q : List (Nat × Nat))
    (v : List Nat) : Nat :=
  q.length + (g.bfsTargets.filter (fun x => decide (x ∉ v))).length

/-- The queue-entry budget invariant used to show that the BFS finds the
target: either the target already sits in the queue within budget, or
some queue entry reaches the target by a walk through unvisited nodes
within budget. -/
def BfsReachInv (g : TrustGraph) (dst : Nat) (bound : Nat)
    (q : List (Nat × Nat)) (v : List Nat) : Prop :=
  (∃ d, (dst, d) ∈ q ∧ d ≤ bound) ∨
  (∃ n dn steps, (n, dn) ∈ q ∧ WalkA g v n dst steps ∧ 1 ≤ steps ∧
    dn + steps ≤ bound)

/-- Claim C4, as stated: whenever a trust path with at most max_hops hops
exists, find_path (on a well-formed graph with an empty cache) returns a
path, that path is a trust path with the minimum possible number of hops,
and every returned path has strength = min of its levels and
hops = nodes - 1. -/
def c4ClaimStatement : Prop :=
  ∀ (g : TrustGraph) (src dst maxHops : Nat) (nodes : List Nat)
    (levels : List TrustLevel),
    g.WF → g.path_cache = [] → src ≠ dst →
    IsTrustPathList g src dst nodes levels → levels.length ≤ maxHops →
    ∃ p, (g.find_path src dst maxHops).1 = some p ∧
      IsTrustPathList g src dst p.nodes p.trust_levels ∧
      ∀ nodes2 levels2, IsTrustPathList g src dst nodes2 levels2 →
        p.hops ≤ levels2.length

/-- The fresh sublist of a neighbour list: the neighbours actually pushed
by the expansion loop, in push order. -/
def freshNbrs (v : List Nat) : List (Nat × TrustLevel) → List (Nat × TrustLevel)
  | [] => []
  | nl :: rest =>
      if nl.1 ∈ v then freshNbrs v rest
      else nl :: freshNbrs (v ++ [nl.1]) rest

/-- The two-edge chain 0 -> 1 -> 2 exercising the hop-limit boundary of
find_path. -/
def c4ChainGraph : TrustGraph :=
  { edges := [(0, [(1, TrustLevel.introduced)]), (1, [(2, TrustLevel.introduced)])]
    path_cache := [] }

/-! ## Theorems -/

/-- C7 counterexample: a message that has reached Read is moved back to
Sent by a further mark_sent call, so the monotonicity claim as stated is
false: mark_sent Read = Sent while Sent ranks strictly below Read. -/
theorem c7_counterexample :
    ¬ c7ClaimStatement ∧
    MessageStatus.read.mark_sent = MessageStatus.sent ∧
    MessageStatus.sent.chainRank < MessageStatus.read.chainRank := by
  refine ⟨fun h => ?_, rfl, by decide⟩
  have h2 := h MessageStatus.read (by decide)
  revert h2
  decide

/-- Claim C7 (amended): mark_delivered and mark_read never move the status
backwards; mark_sent always returns Sent, hence it never moves the status
backwards when called while the status is at most Sent in the chain order
(so any call sequence in which mark_sent is not applied after the status
reached Delivered or Read is monotone). -/
theorem c7_status_monotonicity (s : MessageStatus) :
    s.chainRank ≤ s.mark_delivered.chainRank ∧
    s.chainRank ≤ s.mark_read.chainRank ∧
    s.mark_sent = MessageStatus.sent ∧
    (s.chainRank ≤ MessageStatus.sent.chainRank →
      s.chainRank ≤ s.mark_sent.chainRank) := by
  cases s <;> simp [MessageStatus.mark_delivered, MessageStatus.mark_read,
    MessageStatus.mark_sent, MessageStatus.chainRank]

/-- Witness for c7_status_monotonicity at the Queued status: the guard of
the final conjunct is satisfied there and the conclusion holds. -/
theorem c7_status_monotonicity_witness :
    MessageStatus.queued.chainRank ≤ MessageStatus.sent.chainRank ∧
    MessageStatus.queued.chainRank ≤
      MessageStatus.queued.mark_sent.chainRank :=
  ⟨by decide, (c7_status_monotonicity MessageStatus.queued).2.2.2 (by decide)⟩

/-- C5 counterexample: set_occupancy does not clamp to the capacity, so the
claimed invariant current_occupancy ≤ capacity is violated: a capacity-2
safe house set to occupancy 5 reports occupancy 5.  Moreover the status
rule uses ≥ rather than =, and a house created with capacity 0 has
current_occupancy = capacity while its status is Available, refuting the
claimed equivalence as well. -/
theorem c5_counterexample :
    ((SafeHouse.new 0 0 "A" (Region.mkNamed "R") 2 0).set_occupancy 5 0).current_occupancy = 5 ∧
    ¬ ((SafeHouse.new 0 0 "A" (Region.mkNamed "R") 2 0).set_occupancy 5 0).current_occupancy ≤
      ((SafeHouse.new 0 0 "A" (Region.mkNamed "R") 2 0).set_occupancy 5 0).capacity ∧
    (SafeHouse.new 1 0 "B" (Region.mkNamed "R") 0 0).current_occupancy =
      (SafeHouse.new 1 0 "B" (Region.mkNamed "R") 0 0).capacity ∧
    (SafeHouse.new 1 0 "B" (Region.mkNamed "R") 0 0).status ≠ SafeHouseStatus.occupied := by
  refine ⟨rfl, by decide, rfl, by decide⟩

/-- Claim C5 (amended): under every sequence of the claimed operations in
which set_occupancy is never given an argument above the capacity, the
capacity is positive, and set_status is only used to set the two
externally-set statuses (Closed, TemporarilyUnavailable), the invariant
current_occupancy ≤ capacity holds (occupancy is a natural, so it is
always nonnegative), and status = Occupied iff current_occupancy =
capacity except when the status is Closed or TemporarilyUnavailable.
Without those guards the invariant fails, as c5_counterexample shows. -/
theorem c5_occupancy_invariant (h : SafeHouse) (hr : SafeHouse.GuardedReach h) :
    h.current_occupancy ≤ h.capacity ∧
    (h.status ≠ SafeHouseStatus.closed →
      h.status ≠ SafeHouseStatus.temporarilyUnavailable →
      (h.status = SafeHouseStatus.occupied ↔ h.current_occupancy = h.capacity)) := by
  induction hr with
  | new id operator name region capacity now hcap =>
      refine ⟨Nat.zero_le _, fun _ _ => ?_⟩
      dsimp only [SafeHouse.new]
      constructor
      · intro hcon; exact absurd hcon (by decide)
      · intro heq; exact absurd heq (by omega)
  | set_occupancy occ now hr hocc ih =>
      rename_i h0
      obtain ⟨ile, iiff⟩ := ih
      unfold SafeHouse.set_occupancy
      dsimp only
      by_cases hge : h0.capacity ≤ occ
      · rw [if_pos hge]
        try dsimp only
        refine ⟨hocc, fun _ _ => ⟨fun _ => ?_, fun _ => rfl⟩⟩
        omega
      · rw [if_neg hge]
        try dsimp only
        by_cases hst : h0.status = SafeHouseStatus.occupied
        · rw [if_pos hst]
          try dsimp only
          refine ⟨by omega, fun _ _ => ⟨fun hcon => absurd hcon (by decide), fun heq => absurd heq (by omega)⟩⟩
        · rw [if_neg hst]
          try dsimp only
          refine ⟨by omega, fun hc ht => ⟨fun hcon => absurd hcon hst, fun heq => absurd heq (by omega)⟩⟩
  | set_status st now hr hst ih =>
      obtain ⟨ile, _⟩ := ih
      refine ⟨ile, fun hc ht => ?_⟩
      rcases hst with h1 | h1
      · subst h1
        exact absurd rfl hc
      · subst h1
        exact absurd rfl ht
  | verify now hr ih => exact ih
  | add_capability c now hr ih =>
      unfold SafeHouse.add_capability
      split
      · exact ih
      · exact ih
  | add_accommodation a now hr ih =>
      unfold SafeHouse.add_accommodation
      split
      · exact ih
      · exact ih

/-- Witness for c5_occupancy_invariant: a capacity-2 house filled to 2. -/
theorem c5_occupancy_invariant_witness :
    (((SafeHouse.new 0 0 "A" (Region.mkNamed "R") 2 0).set_occupancy 2 0).current_occupancy ≤
      ((SafeHouse.new 0 0 "A" (Region.mkNamed "R") 2 0).set_occupancy 2 0).capacity) ∧
    (((SafeHouse.new 0 0 "A" (Region.mkNamed "R") 2 0).set_occupancy 2 0).status ≠ SafeHouseStatus.closed →
      ((SafeHouse.new 0 0 "A" (Region.mkNamed "R") 2 0).set_occupancy 2 0).status ≠ SafeHouseStatus.temporarilyUnavailable →
      (((SafeHouse.new 0 0 "A" (Region.mkNamed "R") 2 0).set_occupancy 2 0).status = SafeHouseStatus.occupied ↔
        ((SafeHouse.new 0 0 "A" (Region.mkNamed "R") 2 0).set_occupancy 2 0).current_occupancy =
        ((SafeHouse.new 0 0 "A" (Region.mkNamed "R") 2 0).set_occupancy 2 0).capacity)) :=
  c5_occupancy_invariant _
    (SafeHouse.GuardedReach.set_occupancy 2 0
      (SafeHouse.GuardedReach.new 0 0 "A" (Region.mkNamed "R") 2 0 (by decide))
      (by decide))


/-- Claim C10: trust-graph reads and removals involving peers absent from
the graph are total and behave as documented: get_trust returns None in
both directions, get_trusted and get_trusters return empty lists, and
remove_trust leaves the edge list unchanged while still clearing the path
cache.  (All embedded operations are total Lean functions, so no
operation can fail or panic.) -/
theorem c10_absent_peer_operations (g : TrustGraph) (a b : Nat)
    (haKey : g.edges.lookup a = none)
    (haVal : ∀ e ∈ g.edges, e.2.lookup a = none)
    (hbKey : g.edges.lookup b = none) :
    g.get_trust a b = none ∧ g.get_trust b a = none ∧
    g.get_trusted a = [] ∧ g.get_trusters a = [] ∧
    (g.remove_trust a b).edges = g.edges ∧
    (g.remove_trust a b).path_cache = [] := by
  refine ⟨?_, ?_, ?_, ?_, ?_, ?_⟩
  · simp [TrustGraph.get_trust, haKey]
  · simp [TrustGraph.get_trust, hbKey]
  · simp [TrustGraph.get_trusted, haKey]
  · simp only [TrustGraph.get_trusters]
    rw [List.filterMap_eq_nil_iff]
    intro e he
    rw [haVal e he]
    rfl
  · simp [TrustGraph.remove_trust, haKey]
  · simp [TrustGraph.remove_trust]

/-- Witness for c10_absent_peer_operations: a one-edge graph between
persons 0 and 1 queried about the absent persons 7 and 8. -/
theorem c10_absent_peer_operations_witness :
    let g : TrustGraph :=
      { edges := [(0, [(1, TrustLevel.introduced)])],
        path_cache := [((0, 1), none)] }
    g.get_trust 7 8 = none ∧ g.get_trust 8 7 = none ∧
    g.get_trusted 7 = [] ∧ g.get_trusters 7 = [] ∧
    (g.remove_trust 7 8).edges = g.edges ∧
    (g.remove_trust 7 8).path_cache = [] :=
  c10_absent_peer_operations _ 7 8 (by decide) (by decide) (by decide)


/-- Helper for C6: when every subkey from s below 50 is non-empty, the
probing loop writes nothing and reports failure. -/
theorem sendProbe_all_occupied (mb : List DhtCell) (msg : Bytes) :
    ∀ n s, 50 - s ≤ n →
      (∀ i, s ≤ i → i < 50 → mb.getD i DhtCell.unreadable ≠ DhtCell.empty) →
      sendProbe mb msg s = (mb, false) := by
  intro n
  induction n with
  | zero =>
      intro s hns _
      rw [sendProbe]
      have h50 : ¬ s < 50 := by omega
      simp [h50]
  | succ n ih =>
      intro s hns hocc
      rw [sendProbe]
      by_cases h50 : s < 50
      · rw [dif_pos h50]
        rw [if_neg (hocc s (Nat.le_refl s) h50)]
        exact ih (s + 1) (by omega) (fun i hi hi50 => hocc i (by omega) hi50)
      · simp [h50]

/-- Helper for C6: the probing loop writes the message into the first
empty subkey at or above s and reports success. -/
theorem sendProbe_first_empty (mb : List DhtCell) (msg : Bytes) :
    ∀ n s i, 50 - s ≤ n → s ≤ i → i < 50 →
      mb.getD i DhtCell.unreadable = DhtCell.empty →
      (∀ j, s ≤ j → j < i → mb.getD j DhtCell.unreadable ≠ DhtCell.empty) →
      sendProbe mb msg s = (mb.set i (DhtCell.occupied msg), true) := by
  intro n
  induction n with
  | zero => intro s i hns hsi hi50 _ _; omega
  | succ n ih =>
      intro s i hns hsi hi50 hempty hbefore
      rw [sendProbe]
      have h50 : s < 50 := by omega
      rw [dif_pos h50]
      by_cases hsEq : s = i
      · subst hsEq
        rw [if_pos hempty]
      · have hlt : s < i := by omega
        rw [if_neg (hbefore s (Nat.le_refl s) hlt)]
        exact ih (s + 1) i (by omega) (by omega) hi50 hempty
          (fun j hj hji => hbefore j (by omega) hji)

/-- Claim C6: send_message probes the 50 mailbox subkeys in ascending
order.  If some subkey below 50 is empty, it writes the serialised
message into the first such subkey and succeeds; if none is empty it
fails with the mailbox-full Network error and leaves every subkey
unchanged.  (Occupied and unreadable subkeys are skipped alike, matching
the source, which treats a read error on a subkey as "try the next".) -/
theorem c6_send_message_first_empty_or_full (mb : List DhtCell) (msg : Bytes) :
    ((∀ i, i < 50 → mb.getD i DhtCell.unreadable ≠ DhtCell.empty) →
      VeilidMailbox.send_message mb msg =
        (mb, Except.error (RailError.network "Mailbox full - no empty subkeys"))) ∧
    (∀ i, i < 50 → mb.getD i DhtCell.unreadable = DhtCell.empty →
      (∀ j, j < i → mb.getD j DhtCell.unreadable ≠ DhtCell.empty) →
      VeilidMailbox.send_message mb msg =
        (mb.set i (DhtCell.occupied msg), Except.ok ())) := by
  constructor
  · intro hocc
    unfold VeilidMailbox.send_message
    rw [sendProbe_all_occupied mb msg 50 0 (by omega)
      (fun i _ hi50 => hocc i hi50)]
    rfl
  · intro i hi50 hempty hbefore
    unfold VeilidMailbox.send_message
    rw [sendProbe_first_empty mb msg 50 0 i (by omega) (Nat.zero_le i) hi50
      hempty (fun j _ hji => hbefore j hji)]
    rfl

/-- Witness for c6_send_message_first_empty_or_full: a mailbox whose
subkeys 0 and 1 are occupied and whose subkey 2 is the first empty one
receives the message at subkey 2. -/
theorem c6_send_message_witness :
    let mb : List DhtCell :=
      [DhtCell.occupied [1], DhtCell.occupied [2]] ++ List.replicate 48 DhtCell.empty
    VeilidMailbox.send_message mb [9] =
      (mb.set 2 (DhtCell.occupied [9]), Except.ok ()) :=
  (c6_send_message_first_empty_or_full _ [9]).2 2 (by decide)
    (by decide) (by decide)


/-- Claim C8: can_serve holds exactly when the offer is Active, its
capacity covers the requested number of people, some service region is
within 50 km (exact-arithmetic reading of the f64 comparison) of the
origin or the destination region of the request, and the capability
mapped from every requirement of the request is present among the offer
capabilities. -/
theorem c8_can_serve_iff (o : TransportOffer) (r : TransportRequest) :
    o.can_serve r = true ↔
      (o.status = TransportStatus.active ∧
       r.num_people ≤ o.capacity ∧
       (∃ reg ∈ o.service_regions,
          Region.distance_lt_km r.from_region reg 50 = true ∨
          Region.distance_lt_km r.to_region reg 50 = true) ∧
       ∀ req ∈ r.requirements, requirementCapability req ∈ o.capabilities) := by
  unfold TransportOffer.can_serve
  by_cases h1 : o.status ≠ TransportStatus.active
  · rw [if_pos h1]
    simp only [Bool.false_eq_true, false_iff]
    rintro ⟨ha, -⟩
    exact h1 ha
  · rw [if_neg h1]
    push_neg at h1
    by_cases h2 : o.capacity < r.num_people
    · rw [if_pos h2]
      simp only [Bool.false_eq_true, false_iff]
      rintro ⟨-, hcap, -⟩
      omega
    · rw [if_neg h2]
      by_cases h3 :
          (¬ (o.service_regions.any
              (fun reg => Region.distance_lt_km r.from_region reg 50)) = true ∧
           ¬ (o.service_regions.any
              (fun reg => Region.distance_lt_km r.to_region reg 50)) = true)
      · rw [if_pos h3]
        simp only [Bool.false_eq_true, false_iff]
        rintro ⟨-, -, ⟨reg, hreg, hnear⟩, -⟩
        rcases h3 with ⟨hfrom, hto⟩
        rcases hnear with hn | hn
        · exact hfrom (List.any_eq_true.mpr ⟨reg, hreg, hn⟩)
        · exact hto (List.any_eq_true.mpr ⟨reg, hreg, hn⟩)
      · rw [if_neg h3]
        push_neg at h3
        rw [List.all_eq_true]
        constructor
        · intro hall
          refine ⟨h1, by omega, ?_, ?_⟩
          · rcases Decidable.or_iff_not_imp_left.mpr h3 with hf | ht
            · rcases List.any_eq_true.mp hf with ⟨reg, hreg, hn⟩
              exact ⟨reg, hreg, Or.inl hn⟩
            · rcases List.any_eq_true.mp ht with ⟨reg, hreg, hn⟩
              exact ⟨reg, hreg, Or.inr hn⟩
          · intro req hreq
            have := hall req hreq
            simpa [List.elem_iff] using this
        · rintro ⟨-, -, -, hcaps⟩
          intro req hreq
          simpa [List.elem_iff] using hcaps req hreq


/-- C3 counterexample: save is a plain INSERT OR REPLACE and does not
clear other primary flags, so saving a second identity marked primary
(id 1) into a table already holding a primary identity (id 0) yields two
primary rows, violating the invariant the claim says every operation
preserves. -/
theorem c3_counterexample :
    let i0 : IdentityRow :=
      { id := 0, name := "A", fingerprint := [], keypair_encrypted := [],
        created_at := 0, is_primary := true }
    let i1 : IdentityRow :=
      { id := 1, name := "B", fingerprint := [], keypair_encrypted := [],
        created_at := 0, is_primary := true }
    atMostOnePrimary (IdentityRepository.save i0 []) ∧
    ¬ atMostOnePrimary (IdentityRepository.save i1 (IdentityRepository.save i0 [])) ∧
    ¬ c3ClaimStatement := by
  refine ⟨by decide, by decide, fun h => ?_⟩
  have h2 := h
    { id := 1, name := "B", fingerprint := [], keypair_encrypted := [],
      created_at := 0, is_primary := true }
    [{ id := 0, name := "A", fingerprint := [], keypair_encrypted := [],
       created_at := 0, is_primary := true }]
    (by decide)
  revert h2
  decide

/-- Claim C3 (amended): on a table with distinct ids holding at most one
primary row, update_name, set_primary and delete preserve the
at-most-one-primary invariant (set_primary establishes it outright, and
its unset-then-set pair is a single atomic operation in the embedding,
matching the single transaction in the source); save preserves it
provided the saved identity is not flagged primary or every primary row
already has the saved id.  Saving a new primary over a different existing
primary violates the invariant (c3_counterexample). -/
theorem c3_primary_invariant_amended (tbl : List IdentityRow)
    (i : IdentityRow) (id2 : Nat) (nm : String)
    (hone : atMostOnePrimary tbl)
    (hnodup : (tbl.map IdentityRow.id).Nodup) :
    atMostOnePrimary (IdentityRepository.set_primary id2 tbl) ∧
    atMostOnePrimary (IdentityRepository.update_name id2 nm tbl) ∧
    (∀ tbl2, IdentityRepository.delete id2 tbl = Except.ok tbl2 →
      atMostOnePrimary tbl2) ∧
    ((i.is_primary = false ∨ ∀ r ∈ tbl, r.is_primary = true → r.id = i.id) →
      atMostOnePrimary (IdentityRepository.save i tbl)) := by
  refine ⟨?_, ?_, ?_, ?_⟩
  · unfold atMostOnePrimary IdentityRepository.set_primary
    rw [List.countP_map, List.countP_map]
    have hfun :
        (((fun r : IdentityRow => r.is_primary) ∘
          (fun r : IdentityRow => if r.id = id2 then { r with is_primary := true } else r)) ∘
          (fun r : IdentityRow => { r with is_primary := false })) =
        fun r : IdentityRow => r.id == id2 := by
      funext r
      by_cases h : r.id = id2 <;> simp [Function.comp, h]
    rw [hfun]
    have := List.nodup_iff_count_le_one.mp hnodup id2
    calc tbl.countP (fun r => r.id == id2)
        = (tbl.map IdentityRow.id).countP (fun x => x == id2) := by
          rw [List.countP_map]; rfl
      _ ≤ 1 := by
          rw [← List.count_eq_countP]
          exact this
  · unfold atMostOnePrimary IdentityRepository.update_name
    rw [List.countP_map]
    have hfun :
        ((fun r : IdentityRow => r.is_primary) ∘
          (fun r : IdentityRow => if r.id = id2 then { r with name := nm } else r)) =
        fun r : IdentityRow => r.is_primary := by
      funext r
      by_cases h : r.id = id2 <;> simp [Function.comp, h]
    rw [hfun]
    exact hone
  · intro tbl2 hdel
    unfold IdentityRepository.delete at hdel
    rcases hfind : tbl.find? (fun r => r.id == id2) with _ | r
    · rw [hfind] at hdel; cases hdel
    · rw [hfind] at hdel
      dsimp only at hdel
      by_cases hp : r.is_primary
      · rw [if_pos hp] at hdel; cases hdel
      · rw [if_neg hp] at hdel
        injection hdel with h2
        subst h2
        exact Nat.le_trans
          (List.Sublist.countP_le _ (List.filter_sublist tbl)) hone
  · intro hcond
    unfold atMostOnePrimary IdentityRepository.save
    rw [List.countP_append]
    rcases hcond with hnp | hall
    · have : List.countP (fun r => r.is_primary) [i] = 0 := by
        simp [List.countP, List.countP.go, hnp]
      rw [this]
      have hsub : (tbl.filter (fun r => r.id ≠ i.id)).Sublist tbl :=
        List.filter_sublist tbl
      have := List.Sublist.countP_le (fun r : IdentityRow => r.is_primary) hsub
      unfold atMostOnePrimary at hone
      omega
    · have hz : (tbl.filter (fun r => r.id ≠ i.id)).countP
          (fun r => r.is_primary) = 0 := by
        rw [List.countP_eq_zero]
        intro r hr
        have hmem := List.mem_of_mem_filter hr
        have hid := List.of_mem_filter hr
        simp only [decide_eq_true_eq] at hid
        intro hp
        exact hid (hall r hmem hp)
      rw [hz]
      have : List.countP (fun r => r.is_primary) [i] ≤ 1 := by
        by_cases h : i.is_primary <;> simp [List.countP, List.countP.go, h]
      omega

/-- Witness for c3_primary_invariant_amended: a two-row table with one
primary; moving the primary flag to row 1 preserves the invariant. -/
theorem c3_primary_invariant_amended_witness :
    atMostOnePrimary (IdentityRepository.set_primary 1
      [{ id := 0, name := "A", fingerprint := [], keypair_encrypted := [],
         created_at := 0, is_primary := true },
       { id := 1, name := "B", fingerprint := [], keypair_encrypted := [],
         created_at := 0, is_primary := false }]) :=
  (c3_primary_invariant_amended _
    { id := 1, name := "B", fingerprint := [], keypair_encrypted := [],
      created_at := 0, is_primary := false }
    1 "B" (by decide) (by decide)).1


set_option maxRecDepth 4000 in
/-- Sanity check pinning the SHA-256 implementation to the FIPS 180-4
test vector for the empty message. -/
theorem sha256_empty_vector :
    sha256 [] =
      [0xe3, 0xb0, 0xc4, 0x42, 0x98, 0xfc, 0x1c, 0x14, 0x9a, 0xfb, 0xf4, 0xc8,
       0x99, 0x6f, 0xb9, 0x24, 0x27, 0xae, 0x41, 0xe4, 0x64, 0x9b, 0x93, 0x4c,
       0xa4, 0x95, 0x99, 0x1b, 0x78, 0x52, 0xb8, 0x55] := by decide

set_option maxRecDepth 4000 in
/-- Sanity check pinning the SHA-512 implementation to the FIPS 180-4
test vector for the empty message. -/
theorem sha512_empty_vector :
    sha512 [] =
      [0xcf, 0x83, 0xe1, 0x35, 0x7e, 0xef, 0xb8, 0xbd, 0xf1, 0x54, 0x28, 0x50,
       0xd6, 0x6d, 0x80, 0x07, 0xd6, 0x20, 0xe4, 0x05, 0x0b, 0x57, 0x15, 0xdc,
       0x83, 0xf4, 0xa9, 0x21, 0xd3, 0x6c, 0xe9, 0xce, 0x47, 0xd0, 0xd1, 0x3c,
       0x5d, 0x85, 0xf2, 0xb0, 0xff, 0x83, 0x18, 0xd2, 0x87, 0x7e, 0xec, 0x2f,
       0x63, 0xb9, 0x31, 0xbd, 0x47, 0x41, 0x7a, 0x81, 0xa5, 0x38, 0x32, 0x7a,
       0xf9, 0x27, 0xda, 0x3e] := by decide

set_option maxRecDepth 10000 in
set_option maxHeartbeats 8000000 in
/-- C2 counterexample: the source expands the identity seed with
HKDF over SHA-256 (Hkdf::<Sha256>::new in keypair.rs line 30), not
SHA-512; at the all-zero seed the signing seed produced by from_seed
differs from the SHA-512-based expansion the spec describes. -/
theorem c2_counterexample :
    (IdentityKeypair.from_seed seedObservingKeygen (List.replicate 32 0)).1 ≠
      (identityKeypairSeedsSpec512 (List.replicate 32 0)).1 := by decide

/-- Claim C2 (amended): IdentityKeypair::from_seed expands the 32-byte
identity seed via SHA-256-based extract-then-expand (not SHA-512) into
two 32-byte seeds under labels ending in "-signing" and "-encryption",
and generates the signing keypair from the first and the encryption
keypair from the second. -/
theorem c2_identity_seed_expansion {S E : Type} (kg : KeygenFns S E)
    (seed : Bytes) :
    IdentityKeypair.from_seed kg seed =
      (kg.signingFromSeed (hkdfSha256NoSalt seed signingLabel 32),
       kg.encryptionFromSeed (hkdfSha256NoSalt seed encryptionLabel 32)) ∧
    suffixSigning.isSuffixOf signingLabel = true ∧
    suffixEncryption.isSuffixOf encryptionLabel = true :=
  ⟨rfl, by decide, by decide⟩


/-- A single in-range byte change at a position holding a different value
produces a different list. -/
theorem list_set_ne (l : List Nat) (i v : Nat) (hi : i < l.length)
    (hv : v ≠ l.getD i 0) : l.set i v ≠ l := by
  intro heq
  have h1 : (l.set i v).getD i 0 = v := by
    rw [List.getD_eq_getElem?_getD]
    rw [List.getElem?_set_self]
    · rfl
    · exact hi
  exact hv (h1.symm.trans (by rw [heq]))

/-- The symmetric pairing is injective in its second argument. -/
theorem natPairSym_right_inj {a b c : Nat} (h : natPairSym a b = natPairSym a c) :
    b = c := by
  unfold natPairSym at h
  obtain ⟨hmin, hmax⟩ := Nat.pair_eq_pair.mp h
  have s1 : min a b + max a b = a + b := min_add_max a b
  have s2 : min a c + max a c = a + c := min_add_max a c
  omega

/-- Toy Diffie-Hellman commutativity. -/
theorem toy_dh_comm (a b : Bytes) :
    toyX25519 a (toyBase b) = toyX25519 b (toyBase a) := by
  unfold toyX25519 natPairSym
  rw [Nat.min_comm, Nat.max_comm]

/-- Toy AEAD round trip. -/
theorem toy_aead_roundtrip (k n msg : Bytes) :
    toyChaChaDecrypt k n (toyChaChaEncrypt k n msg) = some msg := by
  unfold toyChaChaDecrypt toyChaChaEncrypt
  simp only [List.getLast?_concat, List.dropLast_concat]
  simp

/-- Toy Diffie-Hellman is injective in the point argument. -/
theorem toy_dh_inj (s a b : Bytes) (h : toyX25519 s a = toyX25519 s b) :
    a = b := by
  unfold toyX25519 pad1 at h
  injection h with h1 _
  exact Encodable.encode_injective (natPairSym_right_inj h1)

/-- Toy decapsulation is injective in the ciphertext. -/
theorem toy_decaps_inj (c d sk : Bytes)
    (h : toyKyberDecaps c sk = toyKyberDecaps d sk) : c = d := by
  unfold toyKyberDecaps pad1 at h
  injection h with h1 _
  exact Encodable.encode_injective (Nat.succ_injective h1)

/-- Toy AEAD rejects under a different key. -/
theorem toy_tamper_key (k k2 n msg : Bytes) (hne : k2 ≠ k) :
    toyChaChaDecrypt k2 n (toyChaChaEncrypt k n msg) = none := by
  have hcond : ¬ (toyTag k n msg = toyTag k2 n msg) := by
    intro heq
    have h1 := (Nat.pair_eq_pair.mp heq).1
    exact hne (Encodable.encode_injective h1).symm
  unfold toyChaChaDecrypt toyChaChaEncrypt
  simp only [List.getLast?_concat, List.dropLast_concat]
  rw [if_neg hcond]

/-- Toy AEAD rejects under a different nonce. -/
theorem toy_tamper_nonce (k n n2 msg : Bytes) (hne : n2 ≠ n) :
    toyChaChaDecrypt k n2 (toyChaChaEncrypt k n msg) = none := by
  have hcond : ¬ (toyTag k n msg = toyTag k n2 msg) := by
    intro heq
    have h1 := (Nat.pair_eq_pair.mp (Nat.pair_eq_pair.mp heq).2).1
    exact hne (Encodable.encode_injective h1).symm
  unfold toyChaChaDecrypt toyChaChaEncrypt
  simp only [List.getLast?_concat, List.dropLast_concat]
  rw [if_neg hcond]

/-- Toy AEAD rejects any single-byte change of the ciphertext. -/
theorem toy_tamper_ct (k n msg : Bytes) (i v : Nat)
    (hi : i < (toyChaChaEncrypt k n msg).length)
    (hv : v ≠ (toyChaChaEncrypt k n msg).getD i 0) :
    toyChaChaDecrypt k n ((toyChaChaEncrypt k n msg).set i v) = none := by
  have hlen : (toyChaChaEncrypt k n msg).length = msg.length + 1 := by
    simp [toyChaChaEncrypt]
  by_cases hcase : i < msg.length
  · have hv2 : v ≠ msg.getD i 0 := by
      intro h
      apply hv
      rw [h]
      unfold toyChaChaEncrypt
      exact (List.getD_append _ _ _ _ hcase).symm
    have hcond : ¬ (toyTag k n msg = toyTag k n (msg.set i v)) := by
      intro heq
      have h3 := (Nat.pair_eq_pair.mp (Nat.pair_eq_pair.mp heq).2).2
      exact list_set_ne msg i v hcase hv2 (Encodable.encode_injective h3).symm
    unfold toyChaChaEncrypt toyChaChaDecrypt
    rw [List.set_append_left _ _ hcase]
    simp only [List.getLast?_concat, List.dropLast_concat]
    rw [if_neg hcond]
  · have hieq : i = msg.length := by omega
    subst hieq
    have hgd : (toyChaChaEncrypt k n msg).getD msg.length 0 = toyTag k n msg := by
      unfold toyChaChaEncrypt
      rw [List.getD_append_right _ _ _ _ (Nat.le_refl _)]
      simp
    have hcond : ¬ (v = toyTag k n msg) := fun h => hv (h.trans hgd.symm)
    unfold toyChaChaEncrypt toyChaChaDecrypt
    rw [List.set_append_right _ _ (Nat.le_refl _)]
    simp only [Nat.sub_self, List.set_cons_zero]
    simp only [List.getLast?_concat, List.dropLast_concat]
    rw [if_neg hcond]


/-- Claim C1: for every plaintext and recipient hybrid keypair, decryption
with the matching X25519 and Kyber secrets inverts encryption, and
changing any single byte of the ciphertext, the nonce, the ephemeral
X25519 public key or the Kyber ciphertext makes decryption fail with a
Crypto error.  The primitives are assumed to satisfy their standard laws
(Diffie-Hellman commutativity, KEM correctness for the matching keypair,
AEAD round trip) and, for the tampering half, ideal authenticity and
injectivity laws that real primitives provide up to negligible forgery
probability. -/
theorem c1_hybrid_roundtrip_and_tamper
    (P : HybridPrims) (xsk ksk kpk eph coins nonce m : Bytes)
    (hdh : ∀ a b, P.x25519 a (P.x25519Base b) = P.x25519 b (P.x25519Base a))
    (hkem : ∀ r, P.kyberDecaps (P.kyberEncaps kpk r).1 ksk = (P.kyberEncaps kpk r).2)
    (haead : ∀ k n mm, P.chachaDecrypt k n (P.chachaEncrypt k n mm) = some mm)
    (hkpk : kpk.length = kyber1024PublicKeyBytes)
    (hksk : ksk.length = kyber1024SecretKeyBytes)
    (hctlen : ∀ r, ((P.kyberEncaps kpk r).1).length = kyber1024CiphertextBytes)
    (hbaselen : ∀ s, (P.x25519Base s).length = 32)
    (hdhinj : ∀ s a b, P.x25519 s a = P.x25519 s b → a = b)
    (hkdfinj : ∀ a b, P.hkdfSha512Msg a = P.hkdfSha512Msg b → a = b)
    (hdecapsinj : ∀ c d, P.kyberDecaps c ksk = P.kyberDecaps d ksk → c = d)
    (htamperC : ∀ k n mm i v, i < (P.chachaEncrypt k n mm).length →
      v ≠ (P.chachaEncrypt k n mm).getD i 0 →
      P.chachaDecrypt k n ((P.chachaEncrypt k n mm).set i v) = none)
    (htamperN : ∀ k n n2 mm, n2 ≠ n →
      P.chachaDecrypt k n2 (P.chachaEncrypt k n mm) = none)
    (htamperK : ∀ k k2 n mm, k2 ≠ k →
      P.chachaDecrypt k2 n (P.chachaEncrypt k n mm) = none) :
    HybridRoundtripTamper P xsk ksk kpk eph coins nonce m := by
  unfold HybridRoundtripTamper
  refine ⟨{ ciphertext := P.chachaEncrypt
              (P.hkdfSha512Msg (P.x25519 eph (P.x25519Base xsk) ++
                (P.kyberEncaps kpk coins).2)) nonce m
            nonce := nonce
            tag := []
            ephemeral_x25519_public_key := P.x25519Base eph
            kyber_ciphertext := (P.kyberEncaps kpk coins).1 },
    ?_, ?_, ?_, ?_, ?_, ?_⟩
  · unfold encrypt_message_hybrid
    rw [if_pos hkpk]
    rfl
  · unfold decrypt_message_hybrid derive_hybrid_message_key
    dsimp only
    rw [if_pos (hbaselen eph), if_pos hksk, if_pos (hctlen coins)]
    rw [hkem coins, hdh xsk eph, haead]
  · intro i v hi hv
    refine ⟨"Decryption failed", ?_⟩
    unfold decrypt_message_hybrid derive_hybrid_message_key
    dsimp only at hi hv ⊢
    rw [if_pos (hbaselen eph), if_pos hksk, if_pos (hctlen coins)]
    rw [hkem coins, hdh xsk eph]
    rw [htamperC _ nonce m i v hi hv]
  · intro i v hi hv
    refine ⟨"Decryption failed", ?_⟩
    unfold decrypt_message_hybrid derive_hybrid_message_key
    dsimp only at hi hv ⊢
    rw [if_pos (hbaselen eph), if_pos hksk, if_pos (hctlen coins)]
    rw [hkem coins, hdh xsk eph]
    rw [htamperN _ nonce (nonce.set i v) m (list_set_ne nonce i v hi hv)]
  · intro i v hi hv
    refine ⟨"Decryption failed", ?_⟩
    unfold decrypt_message_hybrid derive_hybrid_message_key
    dsimp only at hi hv ⊢
    have hlen2 : ((P.x25519Base eph).set i v).length = 32 := by
      rw [List.length_set]
      exact hbaselen eph
    rw [if_pos hlen2, if_pos hksk, if_pos (hctlen coins)]
    rw [hkem coins]
    have hKne :
        P.hkdfSha512Msg (P.x25519 xsk ((P.x25519Base eph).set i v) ++
            (P.kyberEncaps kpk coins).2) ≠
        P.hkdfSha512Msg (P.x25519 eph (P.x25519Base xsk) ++
            (P.kyberEncaps kpk coins).2) := by
      intro hEq
      have h2 := List.append_cancel_right (hkdfinj _ _ hEq)
      rw [← hdh xsk eph] at h2
      exact list_set_ne (P.x25519Base eph) i v hi hv (hdhinj xsk _ _ h2)
    rw [htamperK _ _ nonce m hKne]
  · intro i v hi hv
    refine ⟨"Decryption failed", ?_⟩
    unfold decrypt_message_hybrid derive_hybrid_message_key
    dsimp only at hi hv ⊢
    have hlen2 : (((P.kyberEncaps kpk coins).1).set i v).length =
        kyber1024CiphertextBytes := by
      rw [List.length_set]
      exact hctlen coins
    rw [if_pos (hbaselen eph), if_pos hksk, if_pos hlen2]
    rw [hdh xsk eph]
    have hKne :
        P.hkdfSha512Msg (P.x25519 eph (P.x25519Base xsk) ++
            P.kyberDecaps (((P.kyberEncaps kpk coins).1).set i v) ksk) ≠
        P.hkdfSha512Msg (P.x25519 eph (P.x25519Base xsk) ++
            (P.kyberEncaps kpk coins).2) := by
      intro hEq
      have h2 := List.append_cancel_left (hkdfinj _ _ hEq)
      rw [← hkem coins] at h2
      exact list_set_ne ((P.kyberEncaps kpk coins).1) i v hi hv
        (hdecapsinj _ _ h2)
    rw [htamperK _ _ nonce m hKne]

/-- Witness for c1_hybrid_roundtrip_and_tamper: the toy primitive family
at a concrete keypair, randomness and plaintext. -/
theorem c1_hybrid_roundtrip_and_tamper_witness :
    HybridRoundtripTamper toyHybridPrims (List.replicate 32 1)
      (List.replicate 3168 0) (List.replicate 1568 0) (List.replicate 32 2)
      [3] (List.replicate 12 4) [104, 105] :=
  c1_hybrid_roundtrip_and_tamper toyHybridPrims (List.replicate 32 1)
    (List.replicate 3168 0) (List.replicate 1568 0) (List.replicate 32 2)
    [3] (List.replicate 12 4) [104, 105]
    toy_dh_comm
    (fun _ => rfl)
    toy_aead_roundtrip
    (by rw [List.length_replicate]; rfl)
    (by rw [List.length_replicate]; rfl)
    (fun _ => by
      simp only [toyHybridPrims, toyKyberEncaps, toyKemCt, pad1,
        List.length_cons, List.length_replicate]
      try rfl)
    (fun _ => by
      simp only [toyHybridPrims, toyBase, pad1, List.length_cons,
        List.length_replicate]
      try rfl)
    toy_dh_inj
    (fun _ _ h => h)
    (fun c d => toy_decaps_inj c d (List.replicate 3168 0))
    toy_tamper_ct
    toy_tamper_nonce
    toy_tamper_key

/-- Claim C9: a wrong-length ephemeral X25519 public key, Kyber secret
key or Kyber ciphertext makes decrypt_message_hybrid return a Crypto
error (the embedding is a total function: no panic is possible). -/
theorem c9_decrypt_invalid_lengths (P : HybridPrims)
    (encrypted : EncryptedMessage) (xsk ksk : Bytes)
    (hbad : encrypted.ephemeral_x25519_public_key.length ≠ 32 ∨
      ksk.length ≠ kyber1024SecretKeyBytes ∨
      encrypted.kyber_ciphertext.length ≠ kyber1024CiphertextBytes) :
    ∃ msg, decrypt_message_hybrid P encrypted xsk ksk =
      Except.error (RailError.crypto msg) := by
  unfold decrypt_message_hybrid
  by_cases h1 : encrypted.ephemeral_x25519_public_key.length = 32
  · rw [if_pos h1]
    by_cases h2 : ksk.length = kyber1024SecretKeyBytes
    · rw [if_pos h2]
      by_cases h3 : encrypted.kyber_ciphertext.length = kyber1024CiphertextBytes
      · rcases hbad with hb | hb | hb <;> contradiction
      · rw [if_neg h3]
        exact ⟨_, rfl⟩
    · rw [if_neg h2]
      exact ⟨_, rfl⟩
  · rw [if_neg h1]
    exact ⟨_, rfl⟩

/-- Witness for c9_decrypt_invalid_lengths: an encrypted message whose
ephemeral key field is empty. -/
theorem c9_decrypt_invalid_lengths_witness :
    ∃ msg, decrypt_message_hybrid toyHybridPrims
      { ciphertext := [], nonce := [], tag := [],
        ephemeral_x25519_public_key := [], kyber_ciphertext := [] } [] [] =
      Except.error (RailError.crypto msg) :=
  c9_decrypt_invalid_lengths toyHybridPrims
    { ciphertext := [], nonce := [], tag := [],
      ephemeral_x25519_public_key := [], kyber_ciphertext := [] } [] []
    (Or.inl (by decide))

/-! Association-list lookup facts used by the BFS proofs. -/

/-- Unfolding of lookup on a cons cell as a plain conditional. -/
theorem lookup_cons_eq {α β : Type} [BEq α] [LawfulBEq α] [DecidableEq α] (e : α × β)
    (t : List (α × β)) (k : α) :
    (e :: t).lookup k = if k = e.1 then some e.2 else t.lookup k := by
  obtain ⟨a, b⟩ := e
  simp only [List.lookup]
  split
  · next heq => rw [if_pos (by simpa using heq)]
  · next heq => rw [if_neg (by simpa using heq)]

/-- A successful lookup in the left part survives appending. -/
theorem lookup_append_some {α β : Type} [BEq α] [LawfulBEq α] [DecidableEq α]
    (l1 l2 : List (α × β)) (k : α) (b : β) (h : l1.lookup k = some b) :
    (l1 ++ l2).lookup k = some b := by
  induction l1 with
  | nil => simp [List.lookup] at h
  | cons e t ih =>
      rw [List.cons_append, lookup_cons_eq]
      rw [lookup_cons_eq] at h
      by_cases hk : k = e.1
      · rwa [if_pos hk] at h ⊢
      · rw [if_neg hk] at h ⊢
        exact ih h

/-- With the key absent on the left, lookup continues on the right. -/
theorem lookup_append_none {α β : Type} [BEq α] [LawfulBEq α] [DecidableEq α]
    (l1 l2 : List (α × β)) (k : α) (h : l1.lookup k = none) :
    (l1 ++ l2).lookup k = l2.lookup k := by
  induction l1 with
  | nil => simp
  | cons e t ih =>
      rw [List.cons_append, lookup_cons_eq]
      rw [lookup_cons_eq] at h
      by_cases hk : k = e.1
      · rw [if_pos hk] at h
        cases h
      · rw [if_neg hk] at h ⊢
        exact ih h

/-- Case split for lookup over an append. -/
theorem lookup_append_cases {α β : Type} [BEq α] [LawfulBEq α] [DecidableEq α]
    (l1 l2 : List (α × β)) (k : α) (b : β)
    (h : (l1 ++ l2).lookup k = some b) :
    l1.lookup k = some b ∨ (l1.lookup k = none ∧ l2.lookup k = some b) := by
  cases h1 : l1.lookup k with
  | some c =>
      left
      have h3 := lookup_append_some l1 l2 k c h1
      have hbc : some c = some b := h3.symm.trans h
      injection hbc with h2
      exact congrArg some h2
  | none =>
      right
      rw [lookup_append_none l1 l2 k h1] at h
      exact ⟨rfl, h⟩

/-- A successful lookup exhibits a member of the list. -/
theorem lookup_mem {α β : Type} [BEq α] [LawfulBEq α] [DecidableEq α] (l : List (α × β))
    (k : α) (b : β) (h : l.lookup k = some b) : (k, b) ∈ l := by
  induction l with
  | nil => simp [List.lookup] at h
  | cons e t ih =>
      obtain ⟨a2, b2⟩ := e
      rw [lookup_cons_eq] at h
      dsimp only at h
      by_cases hk : k = a2
      · rw [if_pos hk] at h
        injection h with h2
        subst hk
        subst h2
        exact List.mem_cons_self _ _
      · rw [if_neg hk] at h
        exact List.mem_cons_of_mem _ (ih h)

/-- A key outside the key list looks up to none. -/
theorem lookup_none_of_not_mem {α β : Type} [BEq α] [LawfulBEq α] [DecidableEq α]
    (l : List (α × β)) (k : α) (h : k ∉ l.map Prod.fst) :
    l.lookup k = none := by
  induction l with
  | nil => simp [List.lookup]
  | cons e t ih =>
      rw [lookup_cons_eq]
      have h1 : k ≠ e.1 := by
        intro heq
        exact h (by simp [heq])
      rw [if_neg h1]
      exact ih (fun hm => h (by simp at hm ⊢; right; exact hm))

/-- Over distinct keys, membership determines the lookup. -/
theorem lookup_of_mem_nodup {α β : Type} [BEq α] [LawfulBEq α] [DecidableEq α]
    (l : List (α × β)) (k : α) (b : β) (hm : (k, b) ∈ l)
    (hnd : (l.map Prod.fst).Nodup) : l.lookup k = some b := by
  induction l with
  | nil => cases hm
  | cons e t ih =>
      rw [List.map_cons] at hnd
      rcases List.mem_cons.mp hm with h1 | h1
      · rw [lookup_cons_eq, ← h1]
        simp
      · have hk : k ≠ e.1 := by
          intro heq
          apply (List.nodup_cons.mp hnd).1
          rw [← heq]
          exact List.mem_map_of_mem Prod.fst h1
        rw [lookup_cons_eq, if_neg hk]
        exact ih h1 (List.nodup_cons.mp hnd).2

/-- A successful lookup means the key occurs among the keys. -/
theorem lookup_mem_keys {α β : Type} [BEq α] [LawfulBEq α] [DecidableEq α]
    (l : List (α × β)) (k : α) (b : β) (h : l.lookup k = some b) :
    k ∈ l.map Prod.fst :=
  List.mem_map_of_mem Prod.fst (lookup_mem l k b h)


/-! Chain and reconstruction facts. -/

/-- Chains survive lookup-preserving parent-map extension. -/
theorem chainlist_mono {par par2 : List (Nat × (Nat × TrustLevel))}
    {root n : Nat} {ns : List Nat} {ls : List TrustLevel}
    (hc : ChainList par root n ns ls)
    (hmono : ∀ k pr, par.lookup k = some pr → par2.lookup k = some pr) :
    ChainList par2 root n ns ls := by
  induction hc with
  | zero => exact ChainList.zero
  | succ h hc ih => exact ChainList.succ (hmono _ _ h) ih

/-- A chain ends at the root. -/
theorem chainlist_getLast {par : List (Nat × (Nat × TrustLevel))}
    {root n : Nat} {ns : List Nat} {ls : List TrustLevel}
    (hc : ChainList par root n ns ls) : (n :: ns).getLast? = some root := by
  induction hc with
  | zero => rfl
  | succ h hc ih =>
      rw [List.getLast?_cons_cons]
      exact ih

/-- A chain from a node other than the root has at least one link. -/
theorem chainlist_ne_nil {par : List (Nat × (Nat × TrustLevel))}
    {root n : Nat} {ns : List Nat} {ls : List TrustLevel}
    (hc : ChainList par root n ns ls) (hne : n ≠ root) :
    1 ≤ ls.length := by
  cases hc with
  | zero => exact absurd rfl hne
  | succ h hc => simp

/-- The reconstruction loop follows a parent chain exactly, given enough
fuel. -/
theorem reconGo_chain {par : List (Nat × (Nat × TrustLevel))} {root : Nat}
    {cur : Nat} {ns : List Nat} {ls : List TrustLevel}
    (hc : ChainList par root cur ns ls) (hroot : par.lookup root = none) :
    ∀ accN accL fuel, ns.length < fuel →
      reconGo par root cur accN accL fuel = (accN ++ ns, accL ++ ls) := by
  induction hc with
  | zero =>
      intro accN accL fuel hf
      cases fuel with
      | zero => omega
      | succ f =>
          simp only [reconGo]
          simp
  | succ h hc ih =>
      rename_i cur2 m l ns2 ls2
      intro accN accL fuel hf
      cases fuel with
      | zero => omega
      | succ f =>
          simp only [reconGo]
          have hne : cur2 ≠ root := by
            intro heq
            rw [heq, hroot] at h
            cases h
          rw [if_neg hne, h]
          dsimp only
          have hlen : ns2.length < f := by
            simp only [List.length_cons] at hf
            omega
          rw [ih (accN ++ [m]) (accL ++ [l]) f hlen]
          simp

/-- Binary trust minimum is one of its arguments. -/
theorem min2_eq_or : ∀ a b : TrustLevel,
    TrustLevel.min2 a b = a ∨ TrustLevel.min2 a b = b := by
  intro a b
  cases a <;> cases b <;> decide

/-- Binary trust minimum is below both arguments. -/
theorem min2_le : ∀ a b : TrustLevel,
    (TrustLevel.min2 a b).disc ≤ a.disc ∧ (TrustLevel.min2 a b).disc ≤ b.disc := by
  intro a b
  cases a <;> cases b <;> decide

/-- The list minimum of a nonempty level list is never none. -/
theorem trustLevelListMin_ne_none (a : TrustLevel) (t : List TrustLevel) :
    trustLevelListMin (a :: t) ≠ none := by
  simp only [trustLevelListMin]
  cases trustLevelListMin t <;> simp

/-- The list minimum is a member and a lower bound. -/
theorem trustLevelListMin_spec : ∀ (ls : List TrustLevel) (m : TrustLevel),
    trustLevelListMin ls = some m → m ∈ ls ∧ ∀ l ∈ ls, m.disc ≤ l.disc := by
  intro ls
  induction ls with
  | nil => intro m h; cases h
  | cons a t ih =>
      intro m h
      simp only [trustLevelListMin] at h
      cases ht : trustLevelListMin t with
      | none =>
          rw [ht] at h
          injection h with h
          subst h
          have ht2 : t = [] := by
            cases t with
            | nil => rfl
            | cons b t2 => exact absurd ht (trustLevelListMin_ne_none b t2)
          subst ht2
          exact ⟨List.mem_singleton.mpr rfl, by intro l hl; simp at hl; rw [hl]⟩
      | some m2 =>
          rw [ht] at h
          injection h with h
          subst h
          obtain ⟨hmem, hbd⟩ := ih m2 ht
          constructor
          · rcases min2_eq_or a m2 with h1 | h1
            · rw [h1]; exact List.mem_cons_self _ _
            · rw [h1]; exact List.mem_cons_of_mem _ hmem
          · intro l hl
            rcases List.mem_cons.mp hl with h1 | h1
            · rw [h1]; exact (min2_le a m2).1
            · exact le_trans (min2_le a m2).2 (hbd l h1)

/-- A list with head? some is a cons. -/
theorem head_eq_of_head_some {α : Type} {l : List α} {a : α}
    (h : l.head? = some a) : ∃ t, l = a :: t := by
  cases l with
  | nil => cases h
  | cons x xs =>
      injection h with h
      exact ⟨xs, by rw [h]⟩

/-- Appending one more edge to a checked path keeps it checked. -/
theorem pathListOk_snoc (g : TrustGraph) :
    ∀ (nodes : List Nat) (levels : List TrustLevel) (last nxt : Nat)
      (l : TrustLevel),
    pathListOk g nodes levels = true → nodes.getLast? = some last →
    g.get_trust last nxt = some l →
    pathListOk g (nodes ++ [nxt]) (levels ++ [l]) = true := by
  intro nodes
  induction nodes with
  | nil =>
      intro levels last nxt l h
      cases levels <;> simp [pathListOk] at h
  | cons a rest ih =>
      intro levels last nxt l h hlast hedge
      cases rest with
      | nil =>
          cases levels with
          | nil =>
              have ha : a = last := by
                injection hlast
              subst ha
              simp [pathListOk, hedge]
          | cons lv ls => simp [pathListOk] at h
      | cons b rest2 =>
          cases levels with
          | nil => simp [pathListOk] at h
          | cons lv ls =>
              simp only [pathListOk, Bool.and_eq_true, decide_eq_true_eq] at h
              obtain ⟨h1, h2⟩ := h
              have hlast2 : (b :: rest2).getLast? = some last := by
                rw [List.getLast?_cons_cons] at hlast
                exact hlast
              have h3 := ih ls last nxt l h2 hlast2 hedge
              simp only [List.cons_append, pathListOk, Bool.and_eq_true,
                decide_eq_true_eq]
              rw [List.cons_append] at h3
              exact ⟨h1, h3⟩

/-- A parent chain, reversed, is a checked path from the root. -/
theorem chainlist_reverse_path {g : TrustGraph}
    {par : List (Nat × (Nat × TrustLevel))} {root : Nat}
    (hpar : ∀ n m l, par.lookup n = some (m, l) → g.get_trust m n = some l) :
    ∀ {cur : Nat} {ns : List Nat} {ls : List TrustLevel},
    ChainList par root cur ns ls →
    pathListOk g ((cur :: ns).reverse) ls.reverse = true ∧
      ((cur :: ns).reverse).head? = some root ∧
      ((cur :: ns).reverse).getLast? = some cur := by
  intro cur ns ls hc
  induction hc with
  | zero => exact ⟨rfl, rfl, rfl⟩
  | succ h hc ih =>
      rename_i cur2 m l ns2 ls2
      obtain ⟨ihok, ihhead, ihlast⟩ := ih
      obtain ⟨rtail, hr⟩ := head_eq_of_head_some ihhead
      refine ⟨?_, ?_, ?_⟩
      · have h4 := pathListOk_snoc g ((m :: ns2).reverse) ls2.reverse m cur2 l
          ihok ihlast (hpar cur2 m l h)
        rw [← List.reverse_cons, ← List.reverse_cons] at h4
        exact h4
      · rw [List.reverse_cons, hr, List.cons_append]
        rfl
      · rw [List.reverse_cons]
        exact List.getLast?_concat _

/-- Reconstruction evaluated on a parent chain with enough fuel. -/
theorem reconstruct_eval {par : List (Nat × (Nat × TrustLevel))}
    {root n : Nat} {ns : List Nat} {ls : List TrustLevel}
    (hroot : par.lookup root = none) (hc : ChainList par root n ns ls)
    (hlen : ns.length ≤ par.length) :
    TrustGraph.reconstruct_path root n par =
      { nodes := (n :: ns).reverse, trust_levels := ls.reverse,
        strength := (trustLevelListMin ls.reverse).getD TrustLevel.unknown,
        hops := ns.length } := by
  have hgo : reconGo par root n [n] [] (par.length + 1) = ([n] ++ ns, [] ++ ls) :=
    reconGo_chain hc hroot [n] [] (par.length + 1) (by omega)
  simp only [TrustGraph.reconstruct_path, hgo, List.singleton_append,
    List.nil_append]
  have hlen2 : (n :: ns).reverse.length - 1 = ns.length := by
    simp
  rw [hlen2]

/-- Closed form of the expansion fold: the three state components each
grow by the image of the fresh sublist. -/
theorem bfsExpand_eq (current depth : Nat) :
    ∀ (nbrs : List (Nat × TrustLevel)) (q : List (Nat × Nat)) (v : List Nat)
      (par : List (Nat × (Nat × TrustLevel))),
    bfsExpand nbrs q v par current depth =
      (q ++ (freshNbrs v nbrs).map (fun nl => (nl.1, depth + 1)),
       v ++ (freshNbrs v nbrs).map Prod.fst,
       par ++ (freshNbrs v nbrs).map (fun nl => (nl.1, (current, nl.2)))) := by
  intro nbrs
  induction nbrs with
  | nil => intro q v par; simp [bfsExpand, freshNbrs]
  | cons nl rest ih =>
      intro q v par
      simp only [bfsExpand, List.foldl_cons, freshNbrs]
      by_cases hv : nl.1 ∈ v
      · rw [if_pos hv]
        have hpush : bfsPush current depth (q, v, par) nl = (q, v, par) := by
          simp [bfsPush, hv]
        rw [hpush]
        exact ih q v par
      · rw [if_neg hv]
        have hpush : bfsPush current depth (q, v, par) nl =
            (q ++ [(nl.1, depth + 1)], v ++ [nl.1], par ++ [(nl.1, (current, nl.2))]) := by
          simp [bfsPush, hv]
        rw [hpush]
        have h2 := ih (q ++ [(nl.1, depth + 1)]) (v ++ [nl.1])
          (par ++ [(nl.1, (current, nl.2))])
        simp only [bfsExpand] at h2
        rw [h2]
        simp [List.append_assoc]

/-- Fresh neighbours were not already visited. -/
theorem freshNbrs_not_mem :
    ∀ (nbrs : List (Nat × TrustLevel)) (v : List Nat) (nl : Nat × TrustLevel),
    nl ∈ freshNbrs v nbrs → nl.1 ∉ v := by
  intro nbrs
  induction nbrs with
  | nil => intro v nl h; cases h
  | cons a rest ih =>
      intro v nl h
      simp only [freshNbrs] at h
      by_cases hv : a.1 ∈ v
      · rw [if_pos hv] at h
        exact ih v nl h
      · rw [if_neg hv] at h
        rcases List.mem_cons.mp h with h1 | h1
        · rw [h1]; exact hv
        · intro hin
          exact ih (v ++ [a.1]) nl h1 (List.mem_append_left _ hin)

/-- Fresh neighbours come from the neighbour list. -/
theorem freshNbrs_subset :
    ∀ (nbrs : List (Nat × TrustLevel)) (v : List Nat) (nl : Nat × TrustLevel),
    nl ∈ freshNbrs v nbrs → nl ∈ nbrs := by
  intro nbrs
  induction nbrs with
  | nil => intro v nl h; cases h
  | cons a rest ih =>
      intro v nl h
      simp only [freshNbrs] at h
      by_cases hv : a.1 ∈ v
      · rw [if_pos hv] at h
        exact List.mem_cons_of_mem _ (ih v nl h)
      · rw [if_neg hv] at h
        rcases List.mem_cons.mp h with h1 | h1
        · rw [h1]; exact List.mem_cons_self _ _
        · exact List.mem_cons_of_mem _ (ih (v ++ [a.1]) nl h1)

/-- The keys of the fresh sublist are pairwise distinct. -/
theorem freshNbrs_keys_nodup :
    ∀ (nbrs : List (Nat × TrustLevel)) (v : List Nat),
    ((freshNbrs v nbrs).map Prod.fst).Nodup := by
  intro nbrs
  induction nbrs with
  | nil => intro v; simp [freshNbrs]
  | cons a rest ih =>
      intro v
      simp only [freshNbrs]
      by_cases hv : a.1 ∈ v
      · rw [if_pos hv]
        exact ih v
      · rw [if_neg hv]
        rw [List.map_cons, List.nodup_cons]
        constructor
        · intro hmem
          obtain ⟨nl, hnl, hfst⟩ := List.mem_map.mp hmem
          have := freshNbrs_not_mem rest (v ++ [a.1]) nl hnl
          exact this (List.mem_append_right _ (by rw [hfst]; exact List.mem_singleton.mpr rfl))
        · exact ih (v ++ [a.1])

/-- After expansion, every neighbour key is visited. -/
theorem freshNbrs_cover :
    ∀ (nbrs : List (Nat × TrustLevel)) (v : List Nat) (nl : Nat × TrustLevel),
    nl ∈ nbrs → nl.1 ∈ v ++ (freshNbrs v nbrs).map Prod.fst := by
  intro nbrs
  induction nbrs with
  | nil => intro v nl h; cases h
  | cons a rest ih =>
      intro v nl h
      simp only [freshNbrs]
      rcases List.mem_cons.mp h with h1 | h1
      · subst h1
        by_cases hv : nl.1 ∈ v
        · rw [if_pos hv]
          exact List.mem_append_left _ hv
        · rw [if_neg hv]
          rw [List.map_cons]
          refine List.mem_append_right _ ?_
          exact List.mem_cons_self _ _
      · by_cases hv : a.1 ∈ v
        · rw [if_pos hv]
          exact ih v nl h1
        · rw [if_neg hv]
          have h2 := ih (v ++ [a.1]) nl h1
          rw [List.map_cons]
          rcases List.mem_append.mp h2 with h3 | h3
          · rcases List.mem_append.mp h3 with h4 | h4
            · exact List.mem_append_left _ h4
            · refine List.mem_append_right _ ?_
              rw [List.mem_singleton] at h4
              rw [h4]
              exact List.mem_cons_self _ _
          · refine List.mem_append_right _ ?_
            exact List.mem_cons_of_mem _ h3

/-! Walk facts. -/

/-- Dropping the avoidance constraint from a walk. -/
theorem walkA_to_walklen {g : TrustGraph} {v : List Nat} {a b n : Nat}
    (hw : WalkA g v a b n) : WalkLen g a b n := by
  induction hw with
  | nil c => exact WalkLen.nil c
  | cons l h hb w ih => exact WalkLen.cons l h ih

/-- Shrinking the avoided set preserves a walk. -/
theorem walkA_subset {g : TrustGraph} {v v2 : List Nat} {a b n : Nat}
    (hw : WalkA g v a b n) (hsub : ∀ y ∈ v2, y ∈ v) : WalkA g v2 a b n := by
  induction hw with
  | nil c => exact WalkA.nil c
  | cons l h hb w ih =>
      exact WalkA.cons l h (fun hmem => hb (hsub _ hmem)) ih

/-- Splitting a walk at a distinguished node: either the walk avoids it,
or a strictly shorter suffix walk starts there. -/
theorem walkA_split_at {g : TrustGraph} {v : List Nat} {c b m : Nat}
    (hw : WalkA g v c b m) (a : Nat) :
    WalkA g (a :: v) c b m ∨ ∃ j, j < m ∧ WalkA g v a b j := by
  induction hw with
  | nil c0 => exact Or.inl (WalkA.nil c0)
  | cons l h hb w ih =>
      rename_i a1 x c1 n
      by_cases hxa : x = a
      · exact Or.inr ⟨n, by omega, hxa ▸ w⟩
      · rcases ih with h1 | ⟨j, hj1, hj2⟩
        · refine Or.inl (WalkA.cons l h ?_ h1)
          intro hmem
          rcases List.mem_cons.mp hmem with h2 | h2
          · exact hxa h2
          · exact hb h2
        · exact Or.inr ⟨j, by omega, hj2⟩

/-- Growing the avoided set either preserves a walk, or yields a strictly
shorter walk from one of the newly avoided nodes. -/
theorem walkA_mono_split {g : TrustGraph} {v v2 : List Nat} {a b n : Nat}
    (hw : WalkA g v a b n) :
    WalkA g v2 a b n ∨
      ∃ z m, z ∈ v2 ∧ z ∉ v ∧ WalkA g v2 z b m ∧ m < n := by
  induction hw with
  | nil c => exact Or.inl (WalkA.nil c)
  | cons l h hb w ih =>
      rename_i a1 x c1 k
      by_cases hx2 : x ∈ v2
      · rcases ih with h1 | ⟨z, m, hz1, hz2, hz3, hz4⟩
        · exact Or.inr ⟨x, k, hx2, hb, h1, by omega⟩
        · exact Or.inr ⟨z, m, hz1, hz2, hz3, by omega⟩
      · rcases ih with h1 | ⟨z, m, hz1, hz2, hz3, hz4⟩
        · exact Or.inl (WalkA.cons l h hx2 h1)
        · exact Or.inr ⟨z, m, hz1, hz2, hz3, by omega⟩

/-- Any walk between distinct endpoints contains a walk of the same or
shorter length whose later nodes all differ from the start. -/
theorem walklen_avoid {g : TrustGraph} {b : Nat} :
    ∀ n a, WalkLen g a b n → a ≠ b →
    ∃ m, 1 ≤ m ∧ m ≤ n ∧ WalkA g [a] a b m := by
  intro n
  induction n using Nat.strong_induction_on with
  | _ n ih =>
      intro a hw hne
      cases hw with
      | nil => exact absurd rfl hne
      | cons l h w =>
          rename_i x k
          by_cases hxb : x = b
          · subst hxb
            refine ⟨1, le_refl 1, by omega, WalkA.cons l h ?_ (WalkA.nil x)⟩
            intro hmem
            rw [List.mem_singleton] at hmem
            exact hne hmem.symm
          · by_cases hxa : x = a
            · subst hxa
              obtain ⟨m, h1, h2, h3⟩ := ih k (by omega) x w hne
              exact ⟨m, h1, by omega, h3⟩
            · obtain ⟨m2, h1, h2, hwA⟩ := ih k (by omega) x w hxb
              rcases walkA_split_at hwA a with hleft | ⟨j, hj1, hj2⟩
              · have hwa : WalkA g [a] x b m2 := by
                  refine walkA_subset hleft ?_
                  intro y hy
                  rw [List.mem_singleton] at hy
                  rw [hy]
                  exact List.mem_cons_self _ _
                refine ⟨m2 + 1, by omega, by omega, WalkA.cons l h ?_ hwa⟩
                intro hmem
                rw [List.mem_singleton] at hmem
                exact hxa hmem
              · have hwl : WalkLen g a b j := walkA_to_walklen hj2
                obtain ⟨m, hm1, hm2, hm3⟩ := ih j (by omega) a hwl hne
                exact ⟨m, hm1, by omega, hm3⟩

/-- A checked path between its head and last node is a walk. -/
theorem pathListOk_walklen (g : TrustGraph) :
    ∀ (nodes : List Nat) (levels : List TrustLevel) (a b : Nat),
    pathListOk g nodes levels = true → nodes.head? = some a →
    nodes.getLast? = some b → WalkLen g a b levels.length := by
  intro nodes
  induction nodes with
  | nil =>
      intro levels a b h
      cases levels <;> simp [pathListOk] at h
  | cons x rest ih =>
      intro levels a b h hhead hlast
      have hxa : x = a := by injection hhead
      subst hxa
      cases rest with
      | nil =>
          cases levels with
          | nil =>
              have hxb : x = b := by injection hlast
              subst hxb
              exact WalkLen.nil x
          | cons lv ls => simp [pathListOk] at h
      | cons y rest2 =>
          cases levels with
          | nil => simp [pathListOk] at h
          | cons lv ls =>
              simp only [pathListOk, Bool.and_eq_true, decide_eq_true_eq] at h
              obtain ⟨h1, h2⟩ := h
              have hlast2 : (y :: rest2).getLast? = some b := by
                rw [List.getLast?_cons_cons] at hlast
                exact hlast
              exact WalkLen.cons lv h1 (ih ls y b h2 rfl hlast2)

/-- A checked single-level path is a direct edge. -/
theorem pathListOk_single (g : TrustGraph) :
    ∀ (nodes : List Nat) (l : TrustLevel) (a b : Nat),
    pathListOk g nodes [l] = true → nodes.head? = some a →
    nodes.getLast? = some b → g.get_trust a b = some l := by
  intro nodes l a b h hhead hlast
  cases nodes with
  | nil => cases hhead
  | cons x rest =>
      cases rest with
      | nil => simp [pathListOk] at h
      | cons y rest2 =>
          cases rest2 with
          | nil =>
              simp only [pathListOk, Bool.and_eq_true, decide_eq_true_eq] at h
              injection hhead with hhead
              have hyb : y = b := by
                rw [List.getLast?_cons_cons] at hlast
                injection hlast
              subst hhead
              subst hyb
              exact h.1
          | cons z rest3 =>
              simp only [pathListOk, Bool.and_eq_true] at h
              exact absurd h.2 (by simp [pathListOk])

/-- Least element of a nonempty set of naturals. -/
theorem nat_least {P : Nat → Prop} (h : ∃ n, P n) :
    ∃ n, P n ∧ ∀ m, P m → n ≤ m := by
  classical
  exact ⟨Nat.find h, Nat.find_spec h, fun m hm => Nat.find_min' h hm⟩

/-! BFS invariant preservation. -/

/-- Popping the queue front preserves the invariant. -/
theorem bfsInv_tail {g : TrustGraph} {root c d : Nat} {rest : List (Nat × Nat)}
    {v : List Nat} {par : List (Nat × (Nat × TrustLevel))}
    (h : BfsInv g root ((c, d) :: rest) v par) : BfsInv g root rest v par := by
  obtain ⟨h1, h2, h3, h4, h5, h6, h7, h8⟩ := h
  refine ⟨h1, h2, ?_, ?_, h5, h6, ?_, ?_⟩
  · intro p hp
    exact h3 p (List.mem_cons_of_mem _ hp)
  · rw [List.map_cons] at h4
    exact (List.nodup_cons.mp h4).2
  · intro n dd hmem
    exact h7 n dd (List.mem_cons_of_mem _ hmem)
  · rw [List.map_cons] at h8
    exact h8.of_cons

/-- The queue front has minimal depth. -/
theorem bfsInv_front_min {g : TrustGraph} {root c d : Nat}
    {rest : List (Nat × Nat)} {v : List Nat}
    {par : List (Nat × (Nat × TrustLevel))}
    (h : BfsInv g root ((c, d) :: rest) v par) :
    ∀ p ∈ rest, d ≤ p.2 ∧ p.2 ≤ d + 1 := by
  have h8 := h.depthsSorted
  rw [List.map_cons] at h8
  have h9 := List.pairwise_cons.mp h8
  intro p hp
  exact h9.1 p.2 (List.mem_map_of_mem Prod.snd hp)

/-- Expanding the front's neighbours preserves the invariant. -/
theorem bfs_expand_inv {g : TrustGraph} {root current depth : Nat}
    {rest : List (Nat × Nat)} {v : List Nat}
    {par : List (Nat × (Nat × TrustLevel))} {nbrs : List (Nat × TrustLevel)}
    (hwf : g.WF) (hinv : BfsInv g root ((current, depth) :: rest) v par)
    (hnbrs : g.edges.lookup current = some nbrs) :
    BfsInv g root
      (rest ++ (freshNbrs v nbrs).map (fun nl => (nl.1, depth + 1)))
      (v ++ (freshNbrs v nbrs).map Prod.fst)
      (par ++ (freshNbrs v nbrs).map (fun nl => (nl.1, (current, nl.2)))) := by
  have hfknodup : ((freshNbrs v nbrs).map Prod.fst).Nodup :=
    freshNbrs_keys_nodup nbrs v
  have hfknotv : ∀ x ∈ (freshNbrs v nbrs).map Prod.fst, x ∉ v := by
    intro x hx
    obtain ⟨nl, hnl, he⟩ := List.mem_map.mp hx
    rw [← he]
    exact freshNbrs_not_mem nbrs v nl hnl
  have hparmapkeys :
      ((freshNbrs v nbrs).map (fun nl => (nl.1, (current, nl.2)))).map Prod.fst =
        (freshNbrs v nbrs).map Prod.fst := by
    rw [List.map_map]
    exact List.map_congr_left (fun nl _ => rfl)
  have hqmapkeys :
      ((freshNbrs v nbrs).map (fun nl => (nl.1, depth + 1))).map Prod.fst =
        (freshNbrs v nbrs).map Prod.fst := by
    rw [List.map_map]
    exact List.map_congr_left (fun nl _ => rfl)
  have hroot2 : root ∉ (freshNbrs v nbrs).map Prod.fst :=
    fun h => hfknotv root h hinv.rootMem
  have hrestkeys : ∀ a ∈ rest.map Prod.fst, a ∈ v := by
    intro a ha
    obtain ⟨p, hp, he⟩ := List.mem_map.mp ha
    rw [← he]
    exact hinv.qSubV p (List.mem_cons_of_mem _ hp)
  have hrestnodup : (rest.map Prod.fst).Nodup := by
    have h4 := hinv.qNodesNodup
    rw [List.map_cons] at h4
    exact (List.nodup_cons.mp h4).2
  refine ⟨List.mem_append_left _ hinv.rootMem, ?_, ?_, ?_, ?_, ?_, ?_, ?_⟩
  · rw [lookup_append_none _ _ _ hinv.rootNoPar]
    exact lookup_none_of_not_mem _ root (by rw [hparmapkeys]; exact hroot2)
  · intro p hp
    rcases List.mem_append.mp hp with h1 | h1
    · exact List.mem_append_left _ (hinv.qSubV p (List.mem_cons_of_mem _ h1))
    · obtain ⟨nl, hnl, he⟩ := List.mem_map.mp h1
      rw [← he]
      exact List.mem_append_right _ (List.mem_map_of_mem Prod.fst hnl)
  · rw [List.map_append]
    refine List.Nodup.append hrestnodup (by rw [hqmapkeys]; exact hfknodup) ?_
    intro a ha hb
    rw [hqmapkeys] at hb
    exact hfknotv a hb (hrestkeys a ha)
  · intro n pr h
    rcases lookup_append_cases _ _ _ _ h with h1 | ⟨h1, h2⟩
    · exact List.mem_append_left _ (hinv.parKeysSubV n pr h1)
    · refine List.mem_append_right _ ?_
      have := lookup_mem_keys _ _ _ h2
      rwa [hparmapkeys] at this
  · intro n m l h
    rcases lookup_append_cases _ _ _ _ h with h1 | ⟨h1, h2⟩
    · exact hinv.parEdges n m l h1
    · have hm := lookup_mem _ _ _ h2
      obtain ⟨nl, hnl, he⟩ := List.mem_map.mp hm
      injection he with he1 he2
      injection he2 with he2a he2b
      subst he1
      subst he2a
      subst he2b
      show (g.edges.lookup current).bind (fun t => t.lookup nl.1) = some nl.2
      rw [hnbrs]
      exact lookup_of_mem_nodup nbrs nl.1 nl.2 (freshNbrs_subset nbrs v nl hnl)
        (hwf.2 (current, nbrs) (lookup_mem _ _ _ hnbrs))
  · intro n d hmem
    rcases List.mem_append.mp hmem with h1 | h1
    · obtain ⟨ns, ls, hc, hn, hl, hd⟩ :=
        hinv.qChains n d (List.mem_cons_of_mem _ h1)
      refine ⟨ns, ls,
        chainlist_mono hc (fun k pr hk => lookup_append_some _ _ _ _ hk),
        hn, hl, ?_⟩
      rw [List.length_append]
      omega
    · obtain ⟨nl, hnl, he⟩ := List.mem_map.mp h1
      injection he with he1 he2
      subst he1
      subst he2
      obtain ⟨ns, ls, hc, hn, hl, hd⟩ :=
        hinv.qChains current depth (List.mem_cons_self _ _)
      have hnv : nl.1 ∉ v := freshNbrs_not_mem nbrs v nl hnl
      have hparnone : par.lookup nl.1 = none := by
        cases hcase : par.lookup nl.1 with
        | none => rfl
        | some pr => exact absurd (hinv.parKeysSubV nl.1 pr hcase) hnv
      have hlook :
          (par ++ (freshNbrs v nbrs).map
            (fun nl => (nl.1, (current, nl.2)))).lookup nl.1 =
            some (current, nl.2) := by
        rw [lookup_append_none _ _ _ hparnone]
        refine lookup_of_mem_nodup _ nl.1 (current, nl.2) ?_ ?_
        · exact List.mem_map_of_mem _ hnl
        · rw [hparmapkeys]; exact hfknodup
      refine ⟨current :: ns, nl.2 :: ls,
        ChainList.succ hlook
          (chainlist_mono hc (fun k pr hk => lookup_append_some _ _ _ _ hk)),
        by simp [hn], by simp [hl], ?_⟩
      rw [List.length_append, List.length_map]
      have hpos : 0 < (freshNbrs v nbrs).length := List.length_pos_of_mem hnl
      omega
  · rw [List.map_append, List.pairwise_append]
    have h8 := hinv.depthsSorted
    rw [List.map_cons] at h8
    have h9 := List.pairwise_cons.mp h8
    have hsnd :
        ((freshNbrs v nbrs).map (fun nl => (nl.1, depth + 1))).map Prod.snd =
          (freshNbrs v nbrs).map (fun _ => depth + 1) := by
      rw [List.map_map]
      exact List.map_congr_left (fun nl _ => rfl)
    refine ⟨h9.2, ?_, ?_⟩
    · rw [hsnd]
      clear hsnd h9 h8
      induction (freshNbrs v nbrs) with
      | nil => simp
      | cons a t ih =>
          rw [List.map_cons, List.pairwise_cons]
          refine ⟨?_, ih⟩
          intro b hb
          obtain ⟨x, _, he⟩ := List.mem_map.mp hb
          omega
    · intro a ha b hb
      rw [hsnd] at hb
      obtain ⟨x, _, he⟩ := List.mem_map.mp hb
      have h10 := h9.1 a ha
      omega

/-! Potential bookkeeping. -/

/-- A filter and its complement split the length. -/
theorem filter_length_split {α : Type} (p : α → Bool) (l : List α) :
    (l.filter p).length + (l.filter (fun x => !(p x))).length = l.length := by
  induction l with
  | nil => rfl
  | cons a t ih =>
      rw [List.filter_cons, List.filter_cons]
      cases hpa : p a
      · rw [if_neg (by simp [hpa]), if_pos (by simp [hpa])]
        simp only [List.length_cons]
        omega
      · rw [if_pos (by simp [hpa]), if_neg (by simp [hpa])]
        simp only [List.length_cons]
        omega

/-- Filtering a duplicate-free list for membership in a duplicate-free
subset counts exactly that subset. -/
theorem length_filter_mem_eq {α : Type} [DecidableEq α] (L fk : List α)
    (hL : L.Nodup) (hfk : fk.Nodup) (hsub : ∀ x ∈ fk, x ∈ L) :
    (L.filter (fun x => decide (x ∈ fk))).length = fk.length := by
  have h1 : (L.filter (fun x => decide (x ∈ fk))) ⊆ fk := by
    intro x hx
    have h := List.mem_filter.mp hx
    simpa using h.2
  have h2 : fk ⊆ (L.filter (fun x => decide (x ∈ fk))) := by
    intro x hx
    exact List.mem_filter.mpr ⟨hsub x hx, by simpa⟩
  have hn1 : (L.filter (fun x => decide (x ∈ fk))).Nodup := hL.filter _
  exact le_antisymm (List.Subperm.length_le (hn1.subperm h1))
    (List.Subperm.length_le (hfk.subperm h2))

/-- Avoiding an appended list filters in two stages. -/
theorem filter_notmem_append {α : Type} [DecidableEq α]
    (targets v fkeys : List α) :
    targets.filter (fun x => decide (x ∉ v ++ fkeys)) =
    (targets.filter (fun x => decide (x ∉ v))).filter
      (fun x => decide (x ∉ fkeys)) := by
  rw [List.filter_filter]
  refine List.filter_congr ?_
  intro x hx
  by_cases h1 : x ∈ v <;> by_cases h2 : x ∈ fkeys <;>
    simp [List.mem_append, h1, h2]

/-- Every neighbour key occurs among the potential BFS targets. -/
theorem mem_bfsTargets {g : TrustGraph} {current : Nat}
    {nbrs : List (Nat × TrustLevel)}
    (hnbrs : g.edges.lookup current = some nbrs)
    {nl : Nat × TrustLevel} (hmem : nl ∈ nbrs) : nl.1 ∈ g.bfsTargets := by
  unfold TrustGraph.bfsTargets
  rw [List.mem_dedup, List.mem_flatten]
  refine ⟨nbrs.map Prod.fst, ?_, List.mem_map_of_mem Prod.fst hmem⟩
  exact List.mem_map.mpr ⟨(current, nbrs), lookup_mem _ _ _ hnbrs, rfl⟩

/-- Skipping the queue front decreases the potential by one. -/
theorem bfs_pop_phi (g : TrustGraph) (c d : Nat) (rest : List (Nat × Nat))
    (v : List Nat) :
    g.bfsPhi rest v + 1 = g.bfsPhi ((c, d) :: rest) v := by
  unfold TrustGraph.bfsPhi
  rw [List.length_cons]
  omega

/-- Expanding the front's neighbours decreases the potential by one. -/
theorem bfs_expand_phi {g : TrustGraph} {current depth : Nat}
    {rest : List (Nat × Nat)} {v : List Nat} {nbrs : List (Nat × TrustLevel)}
    (hnbrs : g.edges.lookup current = some nbrs) :
    g.bfsPhi (rest ++ (freshNbrs v nbrs).map (fun nl => (nl.1, depth + 1)))
        (v ++ (freshNbrs v nbrs).map Prod.fst) + 1 =
      g.bfsPhi ((current, depth) :: rest) v := by
  unfold TrustGraph.bfsPhi
  have hnodupT : g.bfsTargets.Nodup := List.nodup_dedup _
  have hL : (g.bfsTargets.filter (fun x => decide (x ∉ v))).Nodup :=
    hnodupT.filter _
  have hfknodup : ((freshNbrs v nbrs).map Prod.fst).Nodup :=
    freshNbrs_keys_nodup nbrs v
  have hsub : ∀ x ∈ (freshNbrs v nbrs).map Prod.fst,
      x ∈ g.bfsTargets.filter (fun x => decide (x ∉ v)) := by
    intro x hx
    obtain ⟨nl, hnl, he⟩ := List.mem_map.mp hx
    refine List.mem_filter.mpr ⟨?_, ?_⟩
    · rw [← he]
      exact mem_bfsTargets hnbrs (freshNbrs_subset nbrs v nl hnl)
    · simp only [decide_eq_true_eq]
      rw [← he]
      exact freshNbrs_not_mem nbrs v nl hnl
  have hsplit := filter_length_split
    (fun x => decide (x ∉ (freshNbrs v nbrs).map Prod.fst))
    (g.bfsTargets.filter (fun x => decide (x ∉ v)))
  have hmemlen :
      ((g.bfsTargets.filter (fun x => decide (x ∉ v))).filter
        (fun x => !(decide (x ∉ (freshNbrs v nbrs).map Prod.fst)))).length =
        ((freshNbrs v nbrs).map Prod.fst).length := by
    have hfun : (fun x : Nat => !(decide (x ∉ (freshNbrs v nbrs).map Prod.fst)))
        = (fun x => decide (x ∈ (freshNbrs v nbrs).map Prod.fst)) := by
      funext x
      by_cases h : x ∈ (freshNbrs v nbrs).map Prod.fst <;> simp [h]
    rw [hfun]
    exact length_filter_mem_eq _ _ hL hfknodup hsub
  rw [filter_notmem_append g.bfsTargets v ((freshNbrs v nbrs).map Prod.fst)]
  simp only [List.length_append, List.length_map, List.length_cons] at hsplit hmemlen ⊢
  omega

/-- The defaulted list minimum of a nonempty level list is a member and a
lower bound. -/
theorem trustLevelMin_getD_spec {ls : List TrustLevel} (h : 1 ≤ ls.length) :
    (trustLevelListMin ls).getD TrustLevel.unknown ∈ ls ∧
    ∀ l ∈ ls, ((trustLevelListMin ls).getD TrustLevel.unknown).disc ≤ l.disc := by
  cases ls with
  | nil => simp at h
  | cons a t =>
      cases hmin : trustLevelListMin (a :: t) with
      | none => exact absurd hmin (trustLevelListMin_ne_none a t)
      | some m =>
          have hspec := trustLevelListMin_spec (a :: t) m hmin
          simpa using hspec

/-- Soundness of the BFS loop: any returned path is a genuine trust path
from source to target whose strength is the minimum of its levels and
whose hop count is one less than its node count. -/
theorem bfs_loop_sound {g : TrustGraph} {src dst maxHops : Nat} (hwf : g.WF)
    (hne : src ≠ dst) :
    ∀ (fuel : Nat) (q : List (Nat × Nat)) (v : List Nat)
      (par : List (Nat × (Nat × TrustLevel))) (p : TrustPath),
    BfsInv g src q v par →
    g.bfs_loop src dst maxHops fuel q v par = some p →
    IsTrustPathList g src dst p.nodes p.trust_levels ∧
      p.hops = p.nodes.length - 1 ∧
      p.strength ∈ p.trust_levels ∧
      (∀ l ∈ p.trust_levels, p.strength.disc ≤ l.disc) := by
  intro fuel
  induction fuel with
  | zero =>
      intro q v par p hinv hrun
      simp [TrustGraph.bfs_loop] at hrun
  | succ f ih =>
      intro q v par p hinv hrun
      cases q with
      | nil => simp [TrustGraph.bfs_loop] at hrun
      | cons front rest =>
          obtain ⟨current, depth⟩ := front
          simp only [TrustGraph.bfs_loop] at hrun
          by_cases hskip : maxHops ≤ depth
          · rw [if_pos hskip] at hrun
            exact ih rest v par p (bfsInv_tail hinv) hrun
          · rw [if_neg hskip] at hrun
            by_cases hcd : current = dst
            · rw [if_pos hcd] at hrun
              injection hrun with hrun
              subst hcd
              obtain ⟨ns, ls, hc, hnlen, hllen, hd⟩ :=
                hinv.qChains current depth (List.mem_cons_self _ _)
              have heval := reconstruct_eval hinv.rootNoPar hc (by omega)
              rw [heval] at hrun
              subst hrun
              have hrev := chainlist_reverse_path hinv.parEdges hc
              have hlen1 : 1 ≤ ls.reverse.length := by
                rw [List.length_reverse]
                exact chainlist_ne_nil hc (fun h => hne h.symm)
              have hmin := trustLevelMin_getD_spec hlen1
              refine ⟨⟨hrev.2.1, hrev.2.2, hrev.1, hlen1⟩, ?_, hmin.1, hmin.2⟩
              simp [hnlen]
            · rw [if_neg hcd] at hrun
              cases hnb : g.edges.lookup current with
              | none =>
                  rw [hnb] at hrun
                  dsimp only at hrun
                  exact ih rest v par p (bfsInv_tail hinv) hrun
              | some nbrs =>
                  rw [hnb] at hrun
                  dsimp only at hrun
                  rw [bfsExpand_eq current depth nbrs rest v par] at hrun
                  dsimp only at hrun
                  exact ih _ _ _ p (bfs_expand_inv hwf hinv hnb) hrun

/-- Progress of the BFS loop: while the reach invariant holds within a
budget below the hop limit, the loop returns a path within that budget. -/
theorem bfs_loop_finds {g : TrustGraph} {src dst maxHops lb : Nat}
    (hwf : g.WF) (hcaplb : lb < maxHops) :
    ∀ (fuel : Nat) (q : List (Nat × Nat)) (v : List Nat)
      (par : List (Nat × (Nat × TrustLevel))),
    BfsInv g src q v par → BfsReachInv g dst lb q v →
    g.bfsPhi q v < fuel →
    ∃ p, g.bfs_loop src dst maxHops fuel q v par = some p ∧ p.hops ≤ lb := by
  intro fuel
  induction fuel with
  | zero =>
      intro q v par hinv hreach hphi
      exact absurd hphi (Nat.not_lt_zero _)
  | succ f ih =>
      intro q v par hinv hreach hphi
      cases q with
      | nil =>
          exfalso
          rcases hreach with ⟨d, hd, _⟩ | ⟨n, dn, steps, hmem, _⟩
          · cases hd
          · cases hmem
      | cons front rest =>
          obtain ⟨current, depth⟩ := front
          have hdeplb : depth ≤ lb := by
            have hex : ∃ x dx, (x, dx) ∈ (current, depth) :: rest ∧ dx ≤ lb := by
              rcases hreach with ⟨d, hd, hdle⟩ |
                ⟨n, dn, steps, hmem, hwalk, hsteps, hble⟩
              · exact ⟨dst, d, hd, hdle⟩
              · exact ⟨n, dn, hmem, by omega⟩
            obtain ⟨x, dx, hmem2, hdxle⟩ := hex
            rcases List.mem_cons.mp hmem2 with h1 | h1
            · injection h1 with h1a h1b
              omega
            · have h2 := (bfsInv_front_min hinv (x, dx) h1).1
              dsimp only at h2
              omega
          simp only [TrustGraph.bfs_loop]
          rw [if_neg (by omega : ¬ maxHops ≤ depth)]
          by_cases hcd : current = dst
          · rw [if_pos hcd]
            subst hcd
            obtain ⟨ns, ls, hc, hnlen, hllen, hd⟩ :=
              hinv.qChains current depth (List.mem_cons_self _ _)
            have heval := reconstruct_eval hinv.rootNoPar hc (by omega)
            refine ⟨_, rfl, ?_⟩
            rw [heval]
            show ns.length ≤ lb
            omega
          · rw [if_neg hcd]
            cases hnb : g.edges.lookup current with
            | none =>
                dsimp only
                refine ih rest v par (bfsInv_tail hinv) ?_ ?_
                · rcases hreach with ⟨d, hd, hdle⟩ |
                    ⟨n, dn, steps, hmem, hwalk, hsteps, hble⟩
                  · rcases List.mem_cons.mp hd with h1 | h1
                    · exact absurd (congrArg Prod.fst h1).symm hcd
                    · exact Or.inl ⟨d, h1, hdle⟩
                  · rcases List.mem_cons.mp hmem with h1 | h1
                    · exfalso
                      injection h1 with h1a h1b
                      subst h1a
                      cases hwalk with
                      | nil => exact hcd rfl
                      | cons l h hb w =>
                          simp only [TrustGraph.get_trust, hnb,
                            Option.bind] at h
                          exact Option.noConfusion h
                    · exact Or.inr ⟨n, dn, steps, h1, hwalk, hsteps, hble⟩
                · have hpop := bfs_pop_phi g current depth rest v
                  omega
            | some nbrs =>
                dsimp only
                rw [bfsExpand_eq current depth nbrs rest v par]
                dsimp only
                refine ih _ _ _ (bfs_expand_inv hwf hinv hnb) ?_ ?_
                · -- reach invariant after expansion
                  have hfkq : ∀ z, z ∈ (freshNbrs v nbrs).map Prod.fst →
                      (z, depth + 1) ∈
                        rest ++ (freshNbrs v nbrs).map
                          (fun nl => (nl.1, depth + 1)) := by
                    intro z hz
                    obtain ⟨nl, hnl, he⟩ := List.mem_map.mp hz
                    refine List.mem_append_right _ ?_
                    exact List.mem_map.mpr ⟨nl, hnl, by rw [he]⟩
                  have hsplitv : ∀ z, z ∈ v ++ (freshNbrs v nbrs).map Prod.fst →
                      z ∉ v → z ∈ (freshNbrs v nbrs).map Prod.fst := by
                    intro z hz hzv
                    rcases List.mem_append.mp hz with h1 | h1
                    · exact absurd h1 hzv
                    · exact h1
                  rcases hreach with ⟨d, hd, hdle⟩ |
                    ⟨n, dn, steps, hmem, hwalk, hsteps, hble⟩
                  · rcases List.mem_cons.mp hd with h1 | h1
                    · exact absurd (congrArg Prod.fst h1).symm hcd
                    · exact Or.inl ⟨d, List.mem_append_left _ h1, hdle⟩
                  · rcases List.mem_cons.mp hmem with h1 | h1
                    · -- the walk starts at the popped node
                      injection h1 with h1a h1b
                      subst h1a
                      cases hwalk with
                      | nil => exact absurd rfl hcd
                      | cons l h hb w =>
                          rename_i x k
                          have hxl : (x, l) ∈ nbrs := by
                            simp only [TrustGraph.get_trust, hnb,
                              Option.bind] at h
                            exact lookup_mem _ _ _ h
                          have hxv2 : x ∈ v ++ (freshNbrs v nbrs).map Prod.fst :=
                            freshNbrs_cover nbrs v (x, l) hxl
                          have hxfk : x ∈ (freshNbrs v nbrs).map Prod.fst :=
                            hsplitv x hxv2 hb
                          cases k with
                          | zero =>
                              cases w
                              exact Or.inl ⟨depth + 1, hfkq dst hxfk, by omega⟩
                          | succ k2 =>
                              rcases walkA_mono_split w with hW2 |
                                ⟨z, m, hz1, hz2, hW3, hmlt⟩
                              · exact Or.inr ⟨x, depth + 1, k2 + 1,
                                  hfkq x hxfk, hW2, by omega, by omega⟩
                              · have hzfk := hsplitv z hz1 hz2
                                cases m with
                                | zero =>
                                    cases hW3
                                    exact Or.inl ⟨depth + 1, hfkq dst hzfk,
                                      by omega⟩
                                | succ m2 =>
                                    exact Or.inr ⟨z, depth + 1, m2 + 1,
                                      hfkq z hzfk, hW3, by omega, by omega⟩
                    · -- the walk starts elsewhere in the queue
                      have hdn := (bfsInv_front_min hinv (n, dn) h1).1
                      dsimp only at hdn
                      rcases walkA_mono_split hwalk with hW2 |
                        ⟨z, m, hz1, hz2, hW3, hmlt⟩
                      · exact Or.inr ⟨n, dn, steps,
                          List.mem_append_left _ h1, hW2, hsteps, hble⟩
                      · have hzfk := hsplitv z hz1 hz2
                        cases m with
                        | zero =>
                            cases hW3
                            exact Or.inl ⟨depth + 1, hfkq dst hzfk, by omega⟩
                        | succ m2 =>
                            exact Or.inr ⟨z, depth + 1, m2 + 1,
                              hfkq z hzfk, hW3, by omega, by omega⟩
                · have hexp := @bfs_expand_phi g current depth rest v nbrs hnb
                  omega

/-- The invariant holds for the initial BFS state. -/
theorem bfs_init_inv (g : TrustGraph) (src : Nat) :
    BfsInv g src [(src, 0)] [src] [] := by
  refine ⟨List.mem_singleton.mpr rfl, rfl, ?_, by simp, ?_, ?_, ?_, ?_⟩
  · intro p hp
    rw [List.mem_singleton] at hp
    rw [hp]
    exact List.mem_singleton.mpr rfl
  · intro n pr h
    simp [List.lookup] at h
  · intro n m l h
    simp [List.lookup] at h
  · intro n d h
    rw [List.mem_singleton] at h
    injection h with h1 h2
    subst h1
    subst h2
    exact ⟨[], [], ChainList.zero, rfl, rfl, by omega⟩
  · simp

/-- The fuel bound dominates the initial potential. -/
theorem bfs_init_phi (g : TrustGraph) (src : Nat) :
    g.bfsPhi [(src, 0)] [src] < g.bfsFuel := by
  unfold TrustGraph.bfsPhi TrustGraph.bfsFuel
  have h1 : (g.bfsTargets.filter (fun x => decide (x ∉ [src]))).length ≤
      g.bfsTargets.length := List.length_filter_le _ _
  have h2 : g.bfsTargets.length ≤
      ((g.edges.map (fun e => e.2.map Prod.fst)).flatten).length :=
    (List.dedup_sublist _).length_le
  have h3 : ((g.edges.map (fun e => e.2.map Prod.fst)).flatten).length =
      (g.edges.map (fun e => e.2.length)).sum := by
    rw [List.length_flatten, List.map_map]
    congr 1
    refine List.map_congr_left ?_
    intro e _
    simp
  simp only [List.length_cons, List.length_nil]
  omega

/-- C4, amended: on a well-formed graph with an empty cache and distinct
endpoints, whenever a trust path of hop count 1, or below max_hops,
exists, find_path returns a path; every returned path is a genuine trust
path from source to target of minimal hop count, its strength is the
minimum of its edge levels, and its hop count is one less than its node
count. -/
theorem c4_find_path_shortest (g : TrustGraph) (src dst maxHops : Nat)
    (nodes : List Nat) (levels : List TrustLevel) (hwf : g.WF)
    (hcache : g.path_cache = []) (hne : src ≠ dst)
    (hpath : IsTrustPathList g src dst nodes levels)
    (hhops : levels.length = 1 ∨ levels.length < maxHops) :
    ∃ p, (g.find_path src dst maxHops).1 = some p ∧
      IsTrustPathList g src dst p.nodes p.trust_levels ∧
      p.hops = p.nodes.length - 1 ∧
      p.strength ∈ p.trust_levels ∧
      (∀ l ∈ p.trust_levels, p.strength.disc ≤ l.disc) ∧
      (∀ nodes2 levels2, IsTrustPathList g src dst nodes2 levels2 →
        p.hops ≤ levels2.length) := by
  have hcl : g.path_cache.lookup (src, dst) = none := by
    rw [hcache]
    rfl
  simp only [TrustGraph.find_path, hcl]
  cases hdir : g.get_trust src dst with
  | some level =>
      refine ⟨_, rfl, ?_, rfl, ?_, ?_, ?_⟩
      · refine ⟨rfl, rfl, ?_, by simp⟩
        simp [pathListOk, hdir]
      · exact List.mem_singleton.mpr rfl
      · intro l hl
        rw [List.mem_singleton] at hl
        rw [hl]
      · intro nodes2 levels2 h2
        exact h2.2.2.2
  | none =>
      have hS : ∃ nL, ∃ n2 l2,
          IsTrustPathList g src dst n2 l2 ∧ l2.length = nL :=
        ⟨levels.length, nodes, levels, hpath, rfl⟩
      obtain ⟨lb, ⟨n0, l0, hp0, hlen0⟩, hminS⟩ := nat_least hS
      have hlb1 : 1 ≤ lb := by
        have := hp0.2.2.2
        omega
      have hnot1 : ∀ (n2 : List Nat) (l2 : List TrustLevel),
          IsTrustPathList g src dst n2 l2 → l2.length ≠ 1 := by
        intro n2 l2 h2 hlen
        obtain ⟨a, ha⟩ := List.length_eq_one.mp hlen
        obtain ⟨hh, hl, hok, _⟩ := h2
        rw [ha] at hok
        have := pathListOk_single g n2 a src dst hok hh hl
        rw [this] at hdir
        cases hdir
      have hlb2 : lb ≠ 1 := fun h => hnot1 n0 l0 hp0 (by omega)
      have hlbcap : lb < maxHops := by
        have hle : lb ≤ levels.length := hminS _ ⟨nodes, levels, hpath, rfl⟩
        rcases hhops with h1 | h1
        · exact absurd h1 (hnot1 nodes levels hpath)
        · omega
      have hwalk : WalkLen g src dst lb := by
        rw [← hlen0]
        exact pathListOk_walklen g n0 l0 src dst hp0.2.2.1 hp0.1 hp0.2.1
      obtain ⟨m, hm1, hm2, hwA⟩ := walklen_avoid lb src hwalk hne
      have hreach : BfsReachInv g dst lb [(src, 0)] [src] :=
        Or.inr ⟨src, 0, m, List.mem_singleton.mpr rfl, hwA, hm1, by omega⟩
      obtain ⟨p, hrun, hple⟩ := bfs_loop_finds hwf hlbcap g.bfsFuel
        [(src, 0)] [src] [] (bfs_init_inv g src) hreach (bfs_init_phi g src)
      obtain ⟨hpath2, hhops2, hstr1, hstr2⟩ := bfs_loop_sound hwf hne
        g.bfsFuel [(src, 0)] [src] [] p (bfs_init_inv g src) hrun
      refine ⟨p, ?_, hpath2, hhops2, hstr1, hstr2, ?_⟩
      · rw [hrun]
      · intro nodes2 levels2 h2
        have := hminS levels2.length ⟨nodes2, levels2, h2, rfl⟩
        omega

/-- C4 counterexample. -/
theorem c4_counterexample : ¬ c4ClaimStatement := by
  intro h
  obtain ⟨p, hp, _⟩ := h c4ChainGraph 0 2 2 [0, 1, 2]
    [TrustLevel.introduced, TrustLevel.introduced]
    ⟨by decide, by decide⟩ rfl (by decide)
    ⟨rfl, rfl, by decide, by decide⟩ (by decide)
  rw [(by decide : (c4ChainGraph.find_path 0 2 2).1 = none)] at hp
  cases hp

/-- C4 witness. -/
theorem c4_find_path_shortest_witness :
    ∃ p, (c4ChainGraph.find_path 0 2 3).1 = some p ∧
      IsTrustPathList c4ChainGraph 0 2 p.nodes p.trust_levels ∧
      p.hops = p.nodes.length - 1 ∧
      p.strength ∈ p.trust_levels ∧
      (∀ l ∈ p.trust_levels, p.strength.disc ≤ l.disc) ∧
      (∀ nodes2 levels2, IsTrustPathList c4ChainGraph 0 2 nodes2 levels2 →
        p.hops ≤ levels2.length) :=
  c4_find_path_shortest c4ChainGraph 0 2 3 [0, 1, 2]
    [TrustLevel.introduced, TrustLevel.introduced]
    ⟨by decide, by decide⟩ rfl (by decide)
    ⟨rfl, rfl, by decide, by decide⟩ (Or.inr (by decide))
